import Mathlib

/-!
# The block renderer of package `tea` (block_renderer.go)

A shallow embedding of `Block`, `byZIndex`, `blockBuffer` and of the methods
`write`, `flush` and `handleMessages` of `blockRenderer`.

Modelling conventions.

* Go's `int` is `Int`.  Coordinates and heights are terminal cell counts; no
  arithmetic of the renderer is modelled near `2^63`.
* Go's `string` and the bytes of a `bytes.Buffer` are `String`: the text the
  renderer handles is taken to be valid UTF-8.
* `io.Writer` is the list of the byte strings handed to `Write`, oldest first.
* The libraries the file imports enter as follows.  `strings.Split`,
  `strings.Repeat`, `fmt.Fprintf` with one `%d` verb and
  `ansi.PrintableRuneWidth` are written out.  `sort.Sort` and the width table
  of `runewidth.RuneWidth` are the two fields of `Lib`: every theorem holds
  for every sort that returns a sorted permutation (the contract of
  `sort.Sort`, which does not promise stability) and for every width table.
* The goroutine `listen`, the ticker and the channel `done` enter through
  `Machine`, which takes one call or one tick at a time. The mutex enters
  through the lists of accesses of the section on lock discipline; no
  interleaving of goroutines is modelled.
-/

namespace tea

/-! ## Data model -/

/-- Block is a rectangular, positionable container. -/
structure Block where
  X : Int
  Y : Int
  Z : Int
  Content : String
  currentLines : List String := []
deriving DecidableEq

/-- The function `strings.Split(s, "\n")`: the pieces of `s` between line feeds. -/
def Split (s : String) : List String :=
  (s.data.splitOn (Char.ofNat 10)).map String.mk

/-- The method `func (b Block) lines() []string`. -/
def Block.lines (b : Block) : List String :=
  Split b.Content

/-- The method `byZIndex.Less`, on the two elements compared. -/
def byZIndex.Less (bi bj : Block) : Bool :=
  decide (bi.Z < bj.Z)

/-- A slice is in the order `sort.Sort(byZIndex(..))` establishes when no later
element is `Less` than an earlier one. -/
def byZIndex.Sorted (l : List Block) : Prop :=
  l.Pairwise (fun a b => byZIndex.Less b a = false)

/-- The two library functions the renderer relies on that are not written out:
`sort.Sort` applied to a `byZIndex` (with its contract: the result is a
permutation of the input, sorted by `Less`; ties may land in any order) and
the cell width table `runewidth.RuneWidth`. -/
structure Lib where
  sort : List Block → List Block
  sort_perm : ∀ l, (sort l).Perm l
  sort_sorted : ∀ l, byZIndex.Sorted (sort l)
  RuneWidth : Char → Nat

/-- The constant `ansi.Marker`. -/
def Marker : Char := Char.ofNat 0x1B

/-- The function `ansi.IsTerminator`. -/
def IsTerminator (c : Char) : Bool :=
  (0x40 ≤ c.toNat && c.toNat ≤ 0x5a) || (0x61 ≤ c.toNat && c.toNat ≤ 0x7a)

/-- One iteration of the loop of `ansi.PrintableRuneWidth`, on the pair
`(n, ansi)`. -/
def PrintableRuneWidth.step (rw : Char → Nat) (st : Nat × Bool) (c : Char) : Nat × Bool :=
  if c = Marker then (st.1, true)
  else if st.2 then (if IsTerminator c then (st.1, false) else (st.1, true))
  else (st.1 + rw c, false)

/-- The function `ansi.PrintableRuneWidth`: the cell width of a string, the
runes of ANSI escape sequences not counted. -/
def PrintableRuneWidth (rw : Char → Nat) (s : String) : Nat :=
  (s.data.foldl (PrintableRuneWidth.step rw) (0, false)).1

/-- Modelled from the spec: the package helper `max(a, b int) int` that `flush`
calls is declared in a file of the package that is not among the sources; the
spec reads it as the maximum (`x = max(x, block.x + printable_width(line))`). -/
def max (a b : Int) : Int :=
  if a > b then a else b

/-! ## blockBuffer -/

/-- The constant `te.CSI`. -/
def CSI : String := "\x1b["

/-- The verb `%d` of `fmt`: decimal, with a minus sign when negative. -/
def fmtD (n : Int) : String :=
  toString n

/-- The string `s` written `n` times. -/
def repeatNat (s : String) : Nat → String
  | 0 => ""
  | n + 1 => s ++ repeatNat s n

/-- The function `strings.Repeat`. It panics on a negative count; `flush` calls
it with the new `linesRendered`, which is never negative. -/
def Repeat (s : String) (count : Int) : String :=
  repeatNat s count.toNat

/-- blockBuffer is used in blockRenderer.flush() to translate a Block into a
bytestring. -/
structure blockBuffer where
  Buffer : String
deriving DecidableEq

/-- The function `newBlockBuffer`. -/
def newBlockBuffer : blockBuffer :=
  ⟨""⟩

/-- The promoted method `WriteString` (also `io.WriteString(out, s)`). -/
def blockBuffer.WriteString (b : blockBuffer) (s : String) : blockBuffer :=
  ⟨b.Buffer ++ s⟩

/-- The promoted method `Bytes`. -/
def blockBuffer.Bytes (b : blockBuffer) : String :=
  b.Buffer

/-- The call `fmt.Fprintf(b, te.CSI+seq, n)` where `seq` is `%d` followed by
`letter`. -/
def blockBuffer.Fprintf (b : blockBuffer) (letter : String) (n : Int) : blockBuffer :=
  ⟨b.Buffer ++ (CSI ++ fmtD n ++ letter)⟩

/-- The method `cursorDown`; `te.CursorDownSeq` is `%dB`. -/
def blockBuffer.cursorDown (b : blockBuffer) (n : Int) : blockBuffer :=
  b.Fprintf "B" n

/-- The method `cursorUp`; `te.CursorUpSeq` is `%dA`. -/
def blockBuffer.cursorUp (b : blockBuffer) (n : Int) : blockBuffer :=
  b.Fprintf "A" n

/-- The method `cursorBack`; `te.CursorBackSeq` is `%dD`. -/
def blockBuffer.cursorBack (b : blockBuffer) (n : Int) : blockBuffer :=
  b.Fprintf "D" n

/-- The method `cursorForward`; `te.CursorForwardSeq` is `%dC`. -/
def blockBuffer.cursorForward (b : blockBuffer) (n : Int) : blockBuffer :=
  b.Fprintf "C" n

/-- The number a sequence of decimal digits denotes, most significant digit
first. -/
def decimalValue (ds : List Char) : Nat :=
  ds.foldl (fun a c => 10 * a + (c.toNat - 48)) 0

/-- The line feed. -/
def LF : Char := Char.ofNat 10

/-! ## blockRenderer -/

/-- The fields of `blockRenderer` the sequential methods read or write. `out`
is the log of the writes made to the `io.Writer`. -/
structure blockRenderer where
  out : List String
  buffer : List Block
  linesRendered : Int
  width : Int
  height : Int
deriving DecidableEq

/-- The messages `handleMessages` tells apart: `WindowSizeMsg` and any other. -/
inductive Msg where
  | WindowSizeMsg (Width Height : Int)
  | other
deriving DecidableEq

/-- The method `write`. -/
def blockRenderer.write (r : blockRenderer) (b : List Block) : blockRenderer :=
  { r with buffer := b }

/-- The method `handleMessages`. -/
def blockRenderer.handleMessages (r : blockRenderer) (msg : Msg) : blockRenderer :=
  match msg with
  | Msg.WindowSizeMsg w h => { r with width := w, height := h }
  | Msg.other => r

/-- The first loop of `flush`: the total height of the area to render. -/
def flush.height (buffer : List Block) : Int :=
  buffer.foldl (fun linesRendered block =>
    tea.max linesRendered ((block.lines.length : Int) + block.Y)) 0

/-- The body of the loop over the lines of a block, on the pair `(out, x)`. -/
def flush.line (L : Lib) (block : Block) (st : blockBuffer × Int) (line : String) :
    blockBuffer × Int :=
  let out := st.1.cursorDown 1
  let out := out.WriteString line
  let width : Int := PrintableRuneWidth L.RuneWidth line
  let out := out.cursorBack width
  (out, tea.max st.2 (block.X + width))

/-- The body of the loop that renders the blocks, on the triple `(out, x, y)`. -/
def flush.block (L : Lib) (st : blockBuffer × Int × Int) (block : Block) :
    blockBuffer × Int × Int :=
  let out := st.1.cursorUp st.2.2
  let out := out.cursorForward block.X
  let out := out.cursorDown block.Y
  let lines := block.lines
  let res := lines.foldl (flush.line L block) (out, st.2.1)
  let y := block.Y + (lines.length : Int) - 1
  (res.1.cursorBack res.2, res.2, y)

/-- The buffer `flush` assembles, given the sorted `r.buffer` and the previous
`r.linesRendered`, together with the new `linesRendered`. -/
def flush.encode (L : Lib) (buffer : List Block) (prev : Int) : blockBuffer × Int :=
  let out := newBlockBuffer
  let out := out.cursorUp prev
  let linesRendered := flush.height buffer
  let out :=
    if linesRendered > prev then
      (out.WriteString (Repeat "\r\n" linesRendered)).cursorUp linesRendered
    else out
  let res := buffer.foldl (flush.block L) (out, 0, 0)
  (res.1, linesRendered)

/-- The method `flush`: sorts the buffer in place, writes the encoded frame to
`r.out` in one call and records `linesRendered`. -/
def blockRenderer.flush (L : Lib) (r : blockRenderer) : blockRenderer :=
  let buffer := L.sort r.buffer
  let res := flush.encode L buffer r.linesRendered
  { r with buffer := buffer, out := r.out ++ [res.1.Bytes], linesRendered := res.2 }

/-- The bytes the last call of `Write` received (empty when there was none). -/
def lastWrite (r : blockRenderer) : String :=
  r.out.getLastD ""

/-! ## The output as a cursor program

The bytes `flush` writes are a sequence of cursor movements, line breaks and
line texts. `Op` names these pieces, `spec.flushOps` lists them in the words of
the specification, and `Op.row` and `Op.col` read them as movements of the
cursor. -/

/-- One piece of the output: a cursor movement with its parameter, the pair
`"\r\n"`, or the text of a line. -/
inductive Op where
  | up (n : Int)
  | down (n : Int)
  | forward (n : Int)
  | back (n : Int)
  | crlf
  | text (s : String)
deriving DecidableEq

/-- The bytes of one piece. -/
def Op.bytes : Op → String
  | Op.up n => CSI ++ fmtD n ++ "A"
  | Op.down n => CSI ++ fmtD n ++ "B"
  | Op.forward n => CSI ++ fmtD n ++ "C"
  | Op.back n => CSI ++ fmtD n ++ "D"
  | Op.crlf => "\r\n"
  | Op.text s => s

/-- The bytes of a sequence of pieces. -/
def bytesOf : List Op → String
  | [] => ""
  | o :: os => o.bytes ++ bytesOf os

/-- The row after one piece: `ESC[nA` moves up by `n`, `ESC[nB` down by `n`,
`"\r\n"` down by one; the other pieces keep the row. Rows are counted downwards
from the anchor row. -/
def Op.row (row : Int) : Op → Int
  | Op.up n => row - n
  | Op.down n => row + n
  | Op.crlf => row + 1
  | _ => row

/-- The row after a sequence of pieces. -/
def rowAfter (row : Int) (ops : List Op) : Int :=
  ops.foldl Op.row row

/-- The column after one piece: `ESC[nC` moves right by `n`, `ESC[nD` left by
`n` stopping at column 0, a text advances by its printable width and a
carriage return goes to column 0. -/
def Op.col (L : Lib) (col : Int) : Op → Int
  | Op.forward n => col + n
  | Op.back n => if col - n < 0 then 0 else col - n
  | Op.text s => col + (PrintableRuneWidth L.RuneWidth s : Int)
  | Op.crlf => 0
  | _ => col

/-- The column after a sequence of pieces. -/
def colAfter (L : Lib) (col : Int) (ops : List Op) : Int :=
  ops.foldl (Op.col L) col

namespace spec

/-- The printable width `w` of a line. -/
def w (L : Lib) (l : String) : Int :=
  (PrintableRuneWidth L.RuneWidth l : Int)

/-- The required height of a frame: the maximum over its blocks of `Y` plus the
number of lines, and 0 for the frame without blocks. -/
def requiredHeight : List Block → Int
  | [] => 0
  | b :: bs => tea.max (b.Y + (b.lines.length : Int)) (requiredHeight bs)

/-- The pieces of one line: down by one, the text, back by its width. -/
def lineOps (L : Lib) (l : String) : List Op :=
  [Op.down 1, Op.text l, Op.back (w L l)]

/-- The pieces of the lines of a block, in order. -/
def linesOps (L : Lib) : List String → List Op
  | [] => []
  | l :: ls => lineOps L l ++ linesOps L ls

/-- The running `x` after the given lines of a block at column `bX`: raised to
`max(x, bX + w(l))` for each line drawn. -/
def xAfter (L : Lib) (bX : Int) : Int → List String → Int
  | x, [] => x
  | x, l :: ls => xAfter L bX (tea.max x (bX + w L l)) ls

/-- The running `x` after block `b`. -/
def xNext (L : Lib) (x : Int) (b : Block) : Int :=
  xAfter L b.X x b.lines

/-- The running `y` after block `b`. -/
def yNext (b : Block) : Int :=
  b.Y + (b.lines.length : Int) - 1

/-- The pieces of one block drawn with running values `x` and `y`: up by `y`,
forward by `X`, down by `Y`, the lines, back by the new `x`. -/
def blockOps (L : Lib) (x y : Int) (b : Block) : List Op :=
  [Op.up y, Op.forward b.X, Op.down b.Y] ++ linesOps L b.lines ++ [Op.back (xNext L x b)]

/-- The pieces of the blocks in order, from running values `x` and `y`. -/
def drawOps (L : Lib) : Int → Int → List Block → List Op
  | _, _, [] => []
  | x, y, b :: bs => blockOps L x y b ++ drawOps L (xNext L x b) (yNext b) bs

/-- The running `x` after the blocks. -/
def runX (L : Lib) : Int → List Block → Int
  | x, [] => x
  | x, b :: bs => runX L (xNext L x b) bs

/-- The running `y` after the blocks. -/
def runY : Int → List Block → Int
  | y, [] => y
  | _, b :: bs => runY (yNext b) bs

/-- The growth step: `H` pairs `"\r\n"` and a move up by `H`, only if `H > p`. -/
def growOps (H p : Int) : List Op :=
  if H > p then List.replicate H.toNat Op.crlf ++ [Op.up H] else []

/-- The pieces of a whole flush of the sorted frame from the previous
`linesRendered` `p`. -/
def flushOps (L : Lib) (p : Int) (frame : List Block) : List Op :=
  [Op.up p] ++ growOps (requiredHeight frame) p ++ drawOps L 0 0 frame

end spec

/-! ## Styled text -/

/-- A parameter character of a style sequence: a decimal digit or `;`. -/
def isParam (c : Char) : Bool :=
  (48 ≤ c.toNat && c.toNat ≤ 57) || c.toNat = 59

/-- A piece of styled text: visible characters, or a style escape sequence
`ESC [ params m`. -/
inductive Styled where
  | plain (cs : List Char)
  | style (params : List Char)
deriving DecidableEq

/-- The characters of a piece. -/
def Styled.chars : Styled → List Char
  | Styled.plain cs => cs
  | Styled.style ps => Marker :: '[' :: (ps ++ ['m'])

/-- Visible pieces hold no escape character and the parameters of a style
sequence are digits and semicolons. -/
def Styled.wellFormed : Styled → Bool
  | Styled.plain cs => cs.all (fun c => decide (c ≠ Marker))
  | Styled.style ps => ps.all isParam

/-- The visual width of a piece: each visible character counts its cell
width, a style sequence counts 0. -/
def Styled.visualWidth (rw : Char → Nat) : Styled → Nat
  | Styled.plain cs => (cs.map rw).sum
  | Styled.style _ => 0

/-- The text of a sequence of pieces. -/
def styledText : List Styled → List Char
  | [] => []
  | s :: ss => s.chars ++ styledText ss

/-- The visual width of a sequence of pieces. -/
def visualWidth (rw : Char → Nat) : List Styled → Nat
  | [] => 0
  | s :: ss => s.visualWidth rw + visualWidth rw ss

/-! ## Evaluation instance -/

/-- The order `byZIndex` sorts into, as a relation. -/
def zLe (a b : Block) : Prop := a.Z ≤ b.Z

instance zLe.decidable : DecidableRel zLe :=
  fun a b => inferInstanceAs (Decidable (a.Z ≤ b.Z))

instance zLe.total : IsTotal Block zLe :=
  ⟨fun a b => Int.le_total a.Z b.Z⟩

instance zLe.trans : IsTrans Block zLe :=
  ⟨fun _ _ _ h₁ h₂ => Int.le_trans h₁ h₂⟩

/-- The cell width of the ASCII range as in `runewidth.RuneWidth`: 1 for the
printable characters `0x20`..`0x7e`, 0 for the control characters. Characters
above the range are given width 1 here. -/
def asciiWidth (c : Char) : Nat :=
  if c.toNat < 0x20 then 0 else if c.toNat = 0x7f then 0 else 1

/-- An instance of `Lib` to evaluate the renderer with: insertion sort, which is
what `sort.Sort` runs on slices of a few elements, and `asciiWidth`. -/
def goLib : Lib where
  sort := List.insertionSort zLe
  sort_perm := List.perm_insertionSort zLe
  sort_sorted := fun l =>
    (List.sorted_insertionSort zLe l).imp (fun {a b} h => by
      simp only [byZIndex.Less, decide_eq_false_iff_not, not_lt]; exact h)
  RuneWidth := asciiWidth

/-- The frame of the worked example: two blocks of stacking index 0. -/
def exampleFrame : List Block :=
  [{ X := 1, Y := 1, Z := 0, Content := "Hi\nThere" }, { X := 4, Y := 4, Z := 0, Content := "Hello" }]

/-- A frame submitted with the higher block first. -/
def reversedFrame : List Block :=
  [{ X := 0, Y := 0, Z := 1, Content := "top" }, { X := 2, Y := 1, Z := 0, Content := "low\nest" }]

/-- The frame of the worked example with the second block stacked above the
first, which fixes the order in which the two are drawn. -/
def stackedFrame : List Block :=
  [{ X := 1, Y := 1, Z := 0, Content := "Hi\nThere" }, { X := 4, Y := 4, Z := 1, Content := "Hello" }]

/-- A frame whose block drawn last is not the one that reaches lowest. -/
def risingFrame : List Block :=
  [{ X := 0, Y := 5, Z := 0, Content := "a" }, { X := 0, Y := 0, Z := 1, Content := "b" }]

/-! ## Lifecycle

The fields `ticker` and `done` of `blockRenderer`, the goroutine `listen` and
the methods `start` and `stop`, as a machine that takes one call or one tick at
a time. -/

/-- The function `newBlockRenderer`: `buffer`, `linesRendered`, `width` and
`height` hold their zero values, and the writer has received nothing yet. -/
def newBlockRenderer : blockRenderer :=
  ⟨[], [], 0, 0, 0⟩

/-- The channel `r.done`: the nil channel of a renderer that was never started,
the channel `start` makes, or that channel after `close(r.done)`. -/
inductive Chan where
  | isNil
  | made
  | closed
deriving DecidableEq

/-- What the renderer does that another party can observe, in order: a call of
`r.out.Write`, and reaching the send `r.done <- struct{}{}`. -/
inductive Event where
  | write (bytes : String)
  | send
deriving DecidableEq

/-- How a call ends: it returns, it blocks forever, or it panics. -/
inductive Outcome where
  | returned
  | blocked
  | panicked
deriving DecidableEq

/-- The renderer with its lifecycle: whether `r.ticker` is non-nil, the state
of `r.done`, whether the goroutine `listen` is waiting in its `select`, and the
events so far. -/
structure Machine where
  r : blockRenderer
  ticker : Bool
  done : Chan
  listening : Bool
  trace : List Event
deriving DecidableEq

/-- A renderer just made by `newBlockRenderer`: no ticker, a nil `done`, no
goroutine. -/
def Machine.fresh : Machine :=
  ⟨newBlockRenderer, false, Chan.isNil, false, []⟩

/-- The method `start`: makes the ticker if there is none, makes `r.done` and
spawns `listen`. -/
def Machine.start (m : Machine) : Machine :=
  { m with ticker := true, done := Chan.made, listening := true }

/-- The method `write` on the machine. -/
def Machine.write (m : Machine) (b : List Block) : Machine :=
  { m with r := m.r.write b }

/-- The method `flush` on the machine: its one call of `Write` is an event. -/
def Machine.flush (L : Lib) (m : Machine) : Machine :=
  { m with r := m.r.flush L, trace := m.trace ++ [Event.write (lastWrite (m.r.flush L))] }

/-- The branch `case <-r.ticker.C` of `listen`: flushes if `r.ticker != nil`.
Only a goroutine that is listening takes it. -/
def Machine.tick (L : Lib) (m : Machine) : Machine :=
  if m.listening && m.ticker then m.flush L else m

/-- The method `stop`: `r.flush()`, then the send on `r.done`. A send on a nil
channel blocks the caller forever (the runtime ends the program only when no
other goroutine can run) and a send on a closed channel panics. A send on the
channel `start` made is received by `listen`, which stops the ticker, sets it
to nil, closes `r.done` and returns; with no goroutine listening the send
blocks. -/
def Machine.stop (L : Lib) (m : Machine) : Machine × Outcome :=
  let m₁ := m.flush L
  let m₂ := { m₁ with trace := m₁.trace ++ [Event.send] }
  match m₂.done with
  | Chan.isNil => (m₂, Outcome.blocked)
  | Chan.closed => (m₂, Outcome.panicked)
  | Chan.made =>
    if m₂.listening then
      ({ m₂ with ticker := false, done := Chan.closed, listening := false }, Outcome.returned)
    else (m₂, Outcome.blocked)

/-! ## Lock discipline

The accesses each method makes to the shared fields, in program order, with
the calls of `r.mtx.Lock` and `r.mtx.Unlock` between them. -/

/-- The fields of `blockRenderer` that more than one goroutine touches. -/
inductive Field where
  | buffer
  | linesRendered
  | ticker
  | done
deriving DecidableEq

/-- One step of a method that matters to the lock: taking or releasing
`r.mtx`, reading or writing a field, and the call of `r.out.Write`. -/
inductive Access where
  | lock
  | unlock
  | read (f : Field)
  | write (f : Field)
  | output
deriving DecidableEq

/-- The method `write`: `Lock`, the assignment to `r.buffer`, and the deferred
`Unlock`. -/
def accesses.write : List Access :=
  [Access.lock, Access.write Field.buffer, Access.unlock]

/-- The method `flush`: `sort.Sort` reads and swaps `r.buffer`, `cursorUp`
reads `r.linesRendered`, the height loop reads `r.buffer`, the comparison reads
`r.linesRendered`, the render loop reads `r.buffer`, then `r.out.Write` and the
assignment to `r.linesRendered`. The method never touches `r.mtx`. -/
def accesses.flush : List Access :=
  [Access.read Field.buffer, Access.write Field.buffer, Access.read Field.linesRendered,
   Access.read Field.buffer, Access.read Field.linesRendered, Access.read Field.buffer,
   Access.output, Access.write Field.linesRendered]

/-- The branch `case <-r.ticker.C` of `listen`: the receive and the test
`r.ticker != nil` read `r.ticker`, then `flush` runs. -/
def accesses.tick : List Access :=
  [Access.read Field.ticker, Access.read Field.ticker] ++ accesses.flush

/-- The branch `case <-r.done` of `listen`: the receive, then under the lock
`r.ticker.Stop()` and `r.ticker = nil`, then `close(r.done)`. -/
def accesses.shutdown : List Access :=
  [Access.read Field.done, Access.lock, Access.read Field.ticker, Access.write Field.ticker,
   Access.unlock, Access.read Field.done]

/-- The method `stop`: `flush`, then the send on `r.done`. -/
def accesses.stop : List Access :=
  accesses.flush ++ [Access.read Field.done]

/-- The fields the specification puts under the mutex: the pending frame,
`linesRendered` and the timer handle. -/
def Field.guarded : Field → Bool
  | Field.buffer => true
  | Field.linesRendered => true
  | Field.ticker => true
  | Field.done => false

/-- The lock discipline on a sequence of accesses, `held` telling whether the
mutex is held at its start: every read or write of a guarded field happens
while the mutex is held, and the output is written while it is not. -/
def disciplined : Bool → List Access → Bool
  | _, [] => true
  | _, Access.lock :: as => disciplined true as
  | _, Access.unlock :: as => disciplined false as
  | held, Access.read f :: as => (!f.guarded || held) && disciplined held as
  | held, Access.write f :: as => (!f.guarded || held) && disciplined held as
  | held, Access.output :: as => !held && disciplined held as

/-! ## Text of the output and joining lines -/

/-- The texts among the pieces, in order. -/
def textsOf : List Op → List String
  | [] => []
  | Op.text s :: os => s :: textsOf os
  | _ :: os => textsOf os

/-- The parameter of a cursor movement is not negative. -/
def Op.wellFormed : Op → Bool
  | Op.up n => decide (0 ≤ n)
  | Op.down n => decide (0 ≤ n)
  | Op.forward n => decide (0 ≤ n)
  | Op.back n => decide (0 ≤ n)
  | _ => true

/-- The function `strings.Join(elems, "\n")`. -/
def Join : List String → String
  | [] => ""
  | [a] => a
  | a :: b :: rest => a ++ "\n" ++ Join (b :: rest)

/-- The number of line feeds in a string. -/
def countLF (s : String) : Nat :=
  s.data.count LF

/-- The states the renderer reaches from `newBlockRenderer` by `write`,
`handleMessages` and `flush`. -/
inductive Reachable (L : Lib) : blockRenderer → Prop where
  | init : Reachable L newBlockRenderer
  | write (r : blockRenderer) (b : List Block) : Reachable L r → Reachable L (r.write b)
  | handleMessages (r : blockRenderer) (msg : Msg) :
      Reachable L r → Reachable L (r.handleMessages msg)
  | flush (r : blockRenderer) : Reachable L r → Reachable L (r.flush L)

/-- The lines of the blocks of a frame, block after block. -/
def allLines : List Block → List String
  | [] => []
  | b :: bs => b.lines ++ allLines bs

/-! # Theorems -/

/-! ## The encoding of a flush -/

theorem bytesOf_append (a b : List Op) : bytesOf (a ++ b) = bytesOf a ++ bytesOf b := by
  induction a with
  | nil => simp [bytesOf]
  | cons o os ih => simp [bytesOf, ih, String.append_assoc]

theorem bytesOf_replicate_crlf (n : Nat) :
    bytesOf (List.replicate n Op.crlf) = repeatNat "\r\n" n := by
  induction n with
  | zero => rfl
  | succ k ih => simp [List.replicate_succ, bytesOf, repeatNat, ih, Op.bytes]

theorem max_eq (a b : Int) : tea.max a b = Max.max a b := by
  unfold tea.max; split <;> omega

theorem flush_lines_fold (L : Lib) (block : Block) (lines : List String) (out : blockBuffer)
    (x : Int) :
    lines.foldl (flush.line L block) (out, x)
      = (⟨out.Buffer ++ bytesOf (spec.linesOps L lines)⟩, spec.xAfter L block.X x lines) := by
  induction lines generalizing out x with
  | nil => simp [spec.linesOps, spec.xAfter, bytesOf]
  | cons l ls ih =>
    simp [flush.line, blockBuffer.cursorDown, blockBuffer.cursorBack,
      blockBuffer.Fprintf, blockBuffer.WriteString, ih, spec.linesOps, spec.lineOps, spec.xAfter,
      spec.w, bytesOf, Op.bytes, String.append_assoc]

theorem flush_block_eq (L : Lib) (block : Block) (out : blockBuffer) (x y : Int) :
    flush.block L (out, x, y) block
      = (⟨out.Buffer ++ bytesOf (spec.blockOps L x y block)⟩, spec.xNext L x block,
          spec.yNext block) := by
  simp [flush.block, flush_lines_fold, blockBuffer.cursorUp, blockBuffer.cursorForward,
    blockBuffer.cursorDown, blockBuffer.cursorBack, blockBuffer.Fprintf, spec.blockOps,
    spec.xNext, spec.yNext, bytesOf_append, bytesOf, Op.bytes, String.append_assoc]

theorem flush_blocks_fold (L : Lib) (blocks : List Block) (out : blockBuffer) (x y : Int) :
    blocks.foldl (flush.block L) (out, x, y)
      = (⟨out.Buffer ++ bytesOf (spec.drawOps L x y blocks)⟩, spec.runX L x blocks,
          spec.runY y blocks) := by
  induction blocks generalizing out x y with
  | nil => simp [spec.drawOps, spec.runX, spec.runY, bytesOf]
  | cons b bs ih =>
    simp only [List.foldl_cons, flush_block_eq, ih, spec.drawOps, spec.runX, spec.runY,
      bytesOf_append, String.append_assoc]

theorem requiredHeight_nonneg (blocks : List Block) : 0 ≤ spec.requiredHeight blocks := by
  cases blocks with
  | nil => simp [spec.requiredHeight]
  | cons b bs => 
    simp only [spec.requiredHeight, max_eq]
    have := requiredHeight_nonneg bs
    omega

theorem height_fold (blocks : List Block) (acc : Int) (h : 0 ≤ acc) :
    blocks.foldl (fun linesRendered block =>
        tea.max linesRendered ((block.lines.length : Int) + block.Y)) acc
      = tea.max acc (spec.requiredHeight blocks) := by
  induction blocks generalizing acc with
  | nil => simp only [List.foldl_nil, spec.requiredHeight, max_eq]; omega
  | cons b bs ih =>
    have h0 := requiredHeight_nonneg bs
    rw [List.foldl_cons, ih _ (by rw [max_eq]; omega)]
    simp only [spec.requiredHeight, max_eq]
    omega

theorem height_eq (blocks : List Block) : flush.height blocks = spec.requiredHeight blocks := by
  have h0 := requiredHeight_nonneg blocks
  rw [flush.height, height_fold blocks 0 (le_refl 0), max_eq]
  omega

theorem encode_eq (L : Lib) (buffer : List Block) (p : Int) :
    flush.encode L buffer p
      = (⟨bytesOf (spec.flushOps L p buffer)⟩, spec.requiredHeight buffer) := by
  simp only [flush.encode, height_eq, flush_blocks_fold, spec.flushOps, spec.growOps]
  split
  · simp [newBlockBuffer, blockBuffer.cursorUp, blockBuffer.WriteString, blockBuffer.Fprintf,
      bytesOf_append, bytesOf, Op.bytes, String.append_assoc, bytesOf_replicate_crlf, Repeat]
  · simp [newBlockBuffer, blockBuffer.cursorUp, blockBuffer.Fprintf,
      bytesOf_append, bytesOf, Op.bytes, String.append_assoc]

theorem flush_out (L : Lib) (r : blockRenderer) :
    (r.flush L).out
      = r.out ++ [bytesOf (spec.flushOps L r.linesRendered (L.sort r.buffer))] := by
  simp [blockRenderer.flush, encode_eq, blockBuffer.Bytes]

theorem flush_lastWrite (L : Lib) (r : blockRenderer) :
    lastWrite (r.flush L) = bytesOf (spec.flushOps L r.linesRendered (L.sort r.buffer)) := by
  rw [lastWrite, flush_out, List.getLastD_concat]

theorem flush_linesRendered (L : Lib) (r : blockRenderer) :
    (r.flush L).linesRendered = spec.requiredHeight (L.sort r.buffer) := by
  simp [blockRenderer.flush, encode_eq]

theorem flush_buffer (L : Lib) (r : blockRenderer) : (r.flush L).buffer = L.sort r.buffer := rfl

/-! ## Height -/

theorem lines_length_pos (b : Block) : 0 < b.lines.length := by
  have h := List.splitOnP_ne_nil (fun x => x == Char.ofNat 10) b.Content.data
  simp only [Block.lines, Split, List.length_map, List.splitOn]
  exact List.length_pos.mpr h

theorem requiredHeight_ge (blocks : List Block) :
    ∀ b ∈ blocks, b.Y + (b.lines.length : Int) ≤ spec.requiredHeight blocks := by
  induction blocks with
  | nil => simp
  | cons a as ih =>
    intro b hb
    simp only [spec.requiredHeight, max_eq]
    rcases List.mem_cons.mp hb with h | h
    · subst h; omega
    · have := ih b h; omega

theorem requiredHeight_attained (blocks : List Block) (hne : blocks ≠ [])
    (hY : ∀ b ∈ blocks, 0 ≤ b.Y) :
    ∃ b ∈ blocks, spec.requiredHeight blocks = b.Y + (b.lines.length : Int) := by
  induction blocks with
  | nil => exact absurd rfl hne
  | cons a as ih =>
    by_cases hle : spec.requiredHeight as ≤ a.Y + (a.lines.length : Int)
    · refine ⟨a, List.mem_cons_self _ _, ?_⟩
      simp only [spec.requiredHeight, max_eq]; omega
    · have has : as ≠ [] := by
        rintro rfl
        have := lines_length_pos a
        have := hY a (List.mem_cons_self _ _)
        simp only [spec.requiredHeight] at hle
        omega
      obtain ⟨b, hb, hEq⟩ := ih has (fun b hb => hY b (List.mem_cons_of_mem _ hb))
      refine ⟨b, List.mem_cons_of_mem _ hb, ?_⟩
      simp only [spec.requiredHeight, max_eq]; omega

/-- C1 (height computation): for every previous `linesRendered` (any other
field of the renderer as well) and every pending frame whose blocks have
`Y ≥ 0`, the `linesRendered` recorded by `flush` is 0 when the frame has no
blocks, and otherwise it is the maximum over the blocks of the frame of
`Y + number of lines`: it bounds that sum for every block and is that sum for
some block; the lines of a block are its `Content` split on line feeds. -/
theorem flush_linesRendered_is_max (L : Lib) (r : blockRenderer)
    (hY : ∀ b ∈ r.buffer, 0 ≤ b.Y) :
    (r.buffer = [] → (r.flush L).linesRendered = 0) ∧
    (∀ b ∈ r.buffer, b.Y + (b.lines.length : Int) ≤ (r.flush L).linesRendered) ∧
    (r.buffer ≠ [] →
      ∃ b ∈ r.buffer, (r.flush L).linesRendered = b.Y + (b.lines.length : Int)) ∧
    (∀ b : Block, b.lines = Split b.Content) := by
  have hp := L.sort_perm r.buffer
  rw [flush_linesRendered]
  refine ⟨?_, ?_, ?_, fun _ => rfl⟩
  · intro h
    have : L.sort r.buffer = [] := List.perm_nil.mp (hp.trans (List.Perm.of_eq h))
    rw [this]; rfl
  · intro b hb
    exact requiredHeight_ge _ b (hp.mem_iff.mpr hb)
  · intro hne
    have hne2 : L.sort r.buffer ≠ [] := by
      intro h; exact hne (List.nil_perm.mp ((List.Perm.of_eq h.symm).trans hp))
    obtain ⟨b, hb, hEq⟩ := requiredHeight_attained _ hne2
      (fun b hb => hY b (hp.mem_iff.mp hb))
    exact ⟨b, hp.mem_iff.mp hb, hEq⟩

/-- Witness of C1: the worked example, whose blocks reach rows `1 + 2` and
`4 + 1`, records `linesRendered = 5`. -/
theorem flush_linesRendered_is_max_witness :
    (∀ b ∈ exampleFrame, 0 ≤ b.Y) ∧
    (∀ b ∈ exampleFrame,
      b.Y + (b.lines.length : Int) ≤ (blockRenderer.flush goLib ⟨[], exampleFrame, 0, 80, 24⟩).linesRendered) ∧
    (blockRenderer.flush goLib ⟨[], exampleFrame, 0, 80, 24⟩).linesRendered = 5 :=
  ⟨by decide,
   (flush_linesRendered_is_max goLib ⟨[], exampleFrame, 0, 80, 24⟩ (by decide)).2.1,
   by decide⟩

/-- C2 (flush encoding): for every renderer state (so every previous
`linesRendered` `p` and every pending frame), `flush` makes exactly one write,
and its bytes are those of `spec.flushOps`: `up(p)`, the growth step if
`H > p`, then for each block of the sorted frame `up(y) forward(X) down(Y)`,
for each line `down(1)`, the line, `back(w)`, and `back(x)`, with the running
`x` and `y` of the specification; the recorded `linesRendered` is `H`. On the
worked example with `p = 0` the bytes are the ones listed and `linesRendered`
becomes 5. -/
theorem flush_encoding (L : Lib) (r : blockRenderer) :
    (r.flush L).out
      = r.out ++ [bytesOf (spec.flushOps L r.linesRendered (L.sort r.buffer))] ∧
    (r.flush L).linesRendered = spec.requiredHeight (L.sort r.buffer) ∧
    byZIndex.Sorted (L.sort r.buffer) ∧ (L.sort r.buffer).Perm r.buffer ∧
    (blockRenderer.flush goLib ⟨[], exampleFrame, 0, 80, 24⟩).out
      = ["\x1b[0A" ++ "\r\n\r\n\r\n\r\n\r\n" ++ "\x1b[5A"
          ++ "\x1b[0A\x1b[1C\x1b[1B" ++ "\x1b[1BHi\x1b[2D" ++ "\x1b[1BThere\x1b[5D" ++ "\x1b[6D"
          ++ "\x1b[2A\x1b[4C\x1b[4B" ++ "\x1b[1BHello\x1b[5D" ++ "\x1b[9D"] ∧
    (blockRenderer.flush goLib ⟨[], exampleFrame, 0, 80, 24⟩).linesRendered = 5 :=
  ⟨flush_out L r, flush_linesRendered L r, L.sort_sorted _, L.sort_perm _, by decide, by decide⟩

/-! ## Z-order -/

theorem drawOps_append (L : Lib) (l₁ l₂ : List Block) (x y : Int) :
    spec.drawOps L x y (l₁ ++ l₂)
      = spec.drawOps L x y l₁ ++ spec.drawOps L (spec.runX L x l₁) (spec.runY y l₁) l₂ := by
  induction l₁ generalizing x y with
  | nil => simp [spec.drawOps, spec.runX, spec.runY]
  | cons b bs ih => simp [spec.drawOps, spec.runX, spec.runY, ih]

theorem runX_append (L : Lib) (l₁ l₂ : List Block) (x : Int) :
    spec.runX L x (l₁ ++ l₂) = spec.runX L (spec.runX L x l₁) l₂ := by
  induction l₁ generalizing x with
  | nil => simp [spec.runX]
  | cons b bs ih => simp [spec.runX, ih]

theorem runY_append (l₁ l₂ : List Block) (y : Int) :
    spec.runY y (l₁ ++ l₂) = spec.runY (spec.runY y l₁) l₂ := by
  induction l₁ generalizing y with
  | nil => simp [spec.runY]
  | cons b bs ih => simp [spec.runY, ih]

theorem sorted_split (l : List Block) (hs : byZIndex.Sorted l) (b₁ b₂ : Block)
    (h₁ : b₁ ∈ l) (h₂ : b₂ ∈ l) (hz : b₁.Z < b₂.Z) :
    ∃ l₁ l₂ l₃, l = l₁ ++ b₁ :: (l₂ ++ b₂ :: l₃) := by
  obtain ⟨s, t, rfl⟩ := List.append_of_mem h₁
  have hmem : b₂ ∈ s ∨ b₂ ∈ b₁ :: t := List.mem_append.mp h₂
  have hpw := List.pairwise_append.mp hs
  rcases hmem with hin | hin
  · exfalso
    have := hpw.2.2 b₂ hin b₁ (List.mem_cons_self _ _)
    simp [byZIndex.Less] at this
    omega
  · rcases List.mem_cons.mp hin with heq | hin
    · subst heq; omega
    · obtain ⟨u, v, rfl⟩ := List.append_of_mem hin
      exact ⟨s, u, v, rfl⟩

/-- C3 (Z-order): for every renderer state, `flush` leaves as pending frame a
permutation of the submitted blocks in non-decreasing `Z`, and the bytes it
writes draw the blocks of that list in order; so for any two submitted blocks
with `z1 < z2` the frame left is `l₁ ++ b₁ :: l₂ ++ b₂ :: l₃` and the output is,
in this order, the preamble, the pieces of `l₁`, the pieces of `b₁` (its
lines among them), the pieces of `l₂`, the pieces of `b₂` (its lines among
them) and the pieces of `l₃`, whatever the order of submission. -/
theorem flush_z_order (L : Lib) (r : blockRenderer) :
    (r.flush L).buffer.Perm r.buffer ∧
    (r.flush L).buffer.Pairwise (fun a b => a.Z ≤ b.Z) ∧
    lastWrite (r.flush L)
      = bytesOf ([Op.up r.linesRendered]
          ++ spec.growOps (spec.requiredHeight (r.flush L).buffer) r.linesRendered
          ++ spec.drawOps L 0 0 (r.flush L).buffer) ∧
    ∀ b₁ b₂, b₁ ∈ r.buffer → b₂ ∈ r.buffer → b₁.Z < b₂.Z →
      ∃ l₁ l₂ l₃,
        (r.flush L).buffer = l₁ ++ b₁ :: (l₂ ++ b₂ :: l₃) ∧
        lastWrite (r.flush L)
          = bytesOf ([Op.up r.linesRendered]
              ++ spec.growOps (spec.requiredHeight (r.flush L).buffer) r.linesRendered)
            ++ bytesOf (spec.drawOps L 0 0 l₁)
            ++ bytesOf ([Op.up (spec.runY 0 l₁), Op.forward b₁.X, Op.down b₁.Y]
                ++ spec.linesOps L b₁.lines
                ++ [Op.back (spec.runX L 0 (l₁ ++ [b₁]))])
            ++ bytesOf (spec.drawOps L (spec.runX L 0 (l₁ ++ [b₁])) (spec.runY 0 (l₁ ++ [b₁])) l₂)
            ++ bytesOf ([Op.up (spec.runY 0 (l₁ ++ b₁ :: l₂)), Op.forward b₂.X, Op.down b₂.Y]
                ++ spec.linesOps L b₂.lines
                ++ [Op.back (spec.runX L 0 (l₁ ++ b₁ :: (l₂ ++ [b₂])))])
            ++ bytesOf (spec.drawOps L (spec.runX L 0 (l₁ ++ b₁ :: (l₂ ++ [b₂])))
                (spec.runY 0 (l₁ ++ b₁ :: (l₂ ++ [b₂]))) l₃) := by
  have hp := L.sort_perm r.buffer
  have hs := L.sort_sorted r.buffer
  refine ⟨hp, ?_, ?_, ?_⟩
  · rw [flush_buffer]
    exact hs.imp (fun {a b} h => by
      simpa [byZIndex.Less] using h)
  · rw [flush_lastWrite, flush_buffer]; rfl
  · intro b₁ b₂ h₁ h₂ hz
    obtain ⟨l₁, l₂, l₃, hl⟩ :=
      sorted_split _ hs b₁ b₂ (hp.mem_iff.mpr h₁) (hp.mem_iff.mpr h₂) hz
    refine ⟨l₁, l₂, l₃, ?_, ?_⟩
    · rw [flush_buffer]; exact hl
    · rw [flush_lastWrite, flush_buffer, hl]
      simp only [spec.flushOps, drawOps_append, spec.drawOps, spec.blockOps, bytesOf_append,
        String.append_assoc, runX_append, runY_append, spec.runX, spec.runY]

/-- Witness of C3: the block submitted first with `Z = 1` is drawn after the
block submitted second with `Z = 0`. -/
theorem flush_z_order_witness :
    (⟨2, 1, 0, "low\nest", []⟩ : Block) ∈ reversedFrame ∧
    (⟨0, 0, 1, "top", []⟩ : Block) ∈ reversedFrame ∧
    (blockRenderer.flush goLib ⟨[], reversedFrame, 0, 80, 24⟩).buffer
      = [⟨2, 1, 0, "low\nest", []⟩, ⟨0, 0, 1, "top", []⟩] ∧
    ∃ l₁ l₂ l₃,
      (blockRenderer.flush goLib ⟨[], reversedFrame, 0, 80, 24⟩).buffer
        = l₁ ++ (⟨2, 1, 0, "low\nest", []⟩ : Block) :: (l₂ ++ (⟨0, 0, 1, "top", []⟩ : Block) :: l₃) :=
  ⟨by decide, by decide, by decide,
   let ⟨l₁, l₂, l₃, h, _⟩ :=
     (flush_z_order goLib ⟨[], reversedFrame, 0, 80, 24⟩).2.2.2
       ⟨2, 1, 0, "low\nest", []⟩ ⟨0, 0, 1, "top", []⟩ (by decide) (by decide) (by decide)
   ⟨l₁, l₂, l₃, h⟩⟩

/-! ## Rows -/

theorem rowAfter_append (row : Int) (a b : List Op) :
    rowAfter row (a ++ b) = rowAfter (rowAfter row a) b := by
  simp [rowAfter, List.foldl_append]

theorem row_linesOps (L : Lib) (row : Int) (ls : List String) :
    rowAfter row (spec.linesOps L ls) = row + (ls.length : Int) := by
  induction ls generalizing row with
  | nil => simp [spec.linesOps, rowAfter]
  | cons l ls ih =>
    rw [spec.linesOps, rowAfter_append, ih]
    simp only [spec.lineOps, rowAfter, List.foldl_cons, List.foldl_nil, Op.row, List.length_cons,
      Nat.cast_add, Nat.cast_one]
    omega

/-- Drawing a block from row `row` with running value `y` ends one row below
`row - y + yNext`. -/
theorem row_blockOps (L : Lib) (row x y : Int) (b : Block) :
    rowAfter row (spec.blockOps L x y b) = row - y + spec.yNext b + 1 := by
  rw [spec.blockOps, rowAfter_append, rowAfter_append, row_linesOps]
  simp only [rowAfter, List.foldl_cons, List.foldl_nil, Op.row, spec.yNext]
  omega

/-- Each block drawn leaves the cursor one row further below the running `y`. -/
theorem row_drawOps (L : Lib) (row x y : Int) (bs : List Block) :
    rowAfter row (spec.drawOps L x y bs) = row - y + spec.runY y bs + (bs.length : Int) := by
  induction bs generalizing row x y with
  | nil => simp [spec.drawOps, spec.runY, rowAfter]
  | cons b bs ih =>
    rw [spec.drawOps, rowAfter_append, row_blockOps, ih]
    simp only [spec.runY, List.length_cons, Nat.cast_add, Nat.cast_one]
    omega

theorem row_growOps (row H p : Int) (hH : 0 ≤ H) : rowAfter row (spec.growOps H p) = row := by
  unfold spec.growOps
  split
  · rw [rowAfter_append]
    have h : ∀ (n : Nat) (r : Int), rowAfter r (List.replicate n Op.crlf) = r + n := by
      intro n
      induction n with
      | zero => intro r; simp [rowAfter]
      | succ k ih =>
        intro r
        rw [List.replicate_succ, rowAfter, List.foldl_cons]
        have := ih (Op.row r Op.crlf)
        rw [rowAfter] at this
        rw [this]
        simp only [Op.row, Nat.cast_add, Nat.cast_one]
        omega
    rw [h]
    simp only [rowAfter, List.foldl_cons, List.foldl_nil, Op.row]
    omega
  · rfl

/-- The row a flush ends on, the cursor being `p` rows below the anchor when it
starts: the running `y` after the last block plus the number of blocks. -/
theorem flush_final_row (L : Lib) (p : Int) (frame : List Block) :
    rowAfter p (spec.flushOps L p frame) = spec.runY 0 frame + (frame.length : Int) := by
  rw [spec.flushOps, rowAfter_append, rowAfter_append,
    row_growOps _ _ _ (requiredHeight_nonneg frame), row_drawOps]
  simp only [rowAfter, List.foldl_cons, List.foldl_nil, Op.row]
  omega

/-- C4 (anchor restoration across frames), evaluated where it fails. With
`p = 0` and the cursor on the anchor row, `flush` of `stackedFrame` records
`linesRendered = 5` but its output leaves the cursor 6 rows below the anchor;
`flush` of `risingFrame` records 6 and leaves the cursor 2 rows below the
anchor. A frame of one block does end `linesRendered` rows below the anchor. -/
theorem flush_anchor_not_restored :
    lastWrite (blockRenderer.flush goLib ⟨[], stackedFrame, 0, 80, 24⟩)
      = bytesOf (spec.flushOps goLib 0 stackedFrame) ∧
    (blockRenderer.flush goLib ⟨[], stackedFrame, 0, 80, 24⟩).linesRendered = 5 ∧
    rowAfter 0 (spec.flushOps goLib 0 stackedFrame) = 6 ∧
    lastWrite (blockRenderer.flush goLib ⟨[], risingFrame, 0, 80, 24⟩)
      = bytesOf (spec.flushOps goLib 0 risingFrame) ∧
    (blockRenderer.flush goLib ⟨[], risingFrame, 0, 80, 24⟩).linesRendered = 6 ∧
    rowAfter 0 (spec.flushOps goLib 0 risingFrame) = 2 ∧
    (blockRenderer.flush goLib ⟨[], [⟨4, 4, 1, "Hello", []⟩], 0, 80, 24⟩).linesRendered = 5 ∧
    rowAfter 0 (spec.flushOps goLib 0 [⟨4, 4, 1, "Hello", []⟩]) = 5 := by
  refine ⟨?_, ?_, ?_, ?_, ?_, ?_, ?_, ?_⟩ <;> decide

/-- C5 (row bookkeeping inside a frame), evaluated where it fails. In the flush
of `stackedFrame` from `p = 0`, when the second block is about to be drawn the
cursor is 3 rows below the anchor and the running `y` is 2, so the move-up
leaves the cursor on row 1; the text `Hello` is then written on row 6, while
in the frame made of that block alone it is written on row 5. -/
theorem flush_row_off_by_one :
    lastWrite (blockRenderer.flush goLib ⟨[], stackedFrame, 0, 80, 24⟩)
      = bytesOf ([Op.up 0] ++ spec.growOps 5 0
          ++ spec.blockOps goLib 0 0 ⟨1, 1, 0, "Hi\nThere", []⟩
          ++ spec.blockOps goLib 6 2 ⟨4, 4, 1, "Hello", []⟩) ∧
    spec.runY 0 [⟨1, 1, 0, "Hi\nThere", []⟩] = 2 ∧
    rowAfter 0 ([Op.up 0] ++ spec.growOps 5 0
      ++ spec.blockOps goLib 0 0 ⟨1, 1, 0, "Hi\nThere", []⟩) = 3 ∧
    rowAfter 0 ([Op.up 0] ++ spec.growOps 5 0
      ++ spec.blockOps goLib 0 0 ⟨1, 1, 0, "Hi\nThere", []⟩ ++ [Op.up 2]) = 1 ∧
    rowAfter 0 ([Op.up 0] ++ spec.growOps 5 0
      ++ spec.blockOps goLib 0 0 ⟨1, 1, 0, "Hi\nThere", []⟩
      ++ [Op.up 2, Op.forward 4, Op.down 4, Op.down 1]) = 6 ∧
    lastWrite (blockRenderer.flush goLib ⟨[], [⟨4, 4, 1, "Hello", []⟩], 0, 80, 24⟩)
      = bytesOf ([Op.up 0] ++ spec.growOps 5 0
          ++ ([Op.up 0, Op.forward 4, Op.down 4, Op.down 1, Op.text "Hello", Op.back 5]
          ++ [Op.back 9])) ∧
    rowAfter 0 ([Op.up 0] ++ spec.growOps 5 0
      ++ [Op.up 0, Op.forward 4, Op.down 4, Op.down 1]) = 5 := by
  refine ⟨?_, ?_, ?_, ?_, ?_, ?_, ?_⟩ <;> decide

/-! ## Columns -/

theorem colAfter_append (L : Lib) (c : Int) (a b : List Op) :
    colAfter L c (a ++ b) = colAfter L (colAfter L c a) b := by
  simp [colAfter, List.foldl_append]

theorem linesOps_append (L : Lib) (l₁ l₂ : List String) :
    spec.linesOps L (l₁ ++ l₂) = spec.linesOps L l₁ ++ spec.linesOps L l₂ := by
  induction l₁ with
  | nil => simp [spec.linesOps]
  | cons l ls ih => simp [spec.linesOps, ih]

theorem w_nonneg (L : Lib) (l : String) : 0 ≤ spec.w L l := by
  simp [spec.w]

theorem col_lineOps (L : Lib) (c : Int) (hc : 0 ≤ c) (l : String) :
    colAfter L c (spec.lineOps L l) = c := by
  have hw := w_nonneg L l
  simp only [colAfter, spec.lineOps, List.foldl_cons, List.foldl_nil, Op.col]
  simp only [spec.w] at hw ⊢
  split <;> omega

theorem col_linesOps (L : Lib) (c : Int) (hc : 0 ≤ c) (ls : List String) :
    colAfter L c (spec.linesOps L ls) = c := by
  induction ls with
  | nil => rfl
  | cons l ls ih => rw [spec.linesOps, colAfter_append, col_lineOps L c hc, ih]

theorem xAfter_ge (L : Lib) (bX x : Int) (ls : List String) : x ≤ spec.xAfter L bX x ls := by
  induction ls generalizing x with
  | nil => simp [spec.xAfter]
  | cons l ls ih =>
    have := ih (tea.max x (bX + spec.w L l))
    rw [max_eq] at this
    simp only [spec.xAfter, max_eq]
    omega

theorem xAfter_ge_X (L : Lib) (bX x : Int) (ls : List String) (hne : ls ≠ []) :
    bX ≤ spec.xAfter L bX x ls := by
  cases ls with
  | nil => exact absurd rfl hne
  | cons l ls =>
    have h₁ := xAfter_ge L bX (tea.max x (bX + spec.w L l)) ls
    have h₂ := w_nonneg L l
    rw [max_eq] at h₁
    simp only [spec.xAfter, max_eq]
    omega

theorem xNext_ge_X (L : Lib) (x : Int) (b : Block) : b.X ≤ spec.xNext L x b :=
  xAfter_ge_X L b.X x b.lines (List.length_pos.mp (lines_length_pos b))

theorem col_blockOps (L : Lib) (x y : Int) (b : Block) (hX : 0 ≤ b.X) :
    colAfter L 0 (spec.blockOps L x y b) = 0 := by
  have hge := xNext_ge_X L x b
  rw [spec.blockOps, colAfter_append, colAfter_append]
  have h₁ : colAfter L 0 [Op.up y, Op.forward b.X, Op.down b.Y] = b.X := by
    simp [colAfter, Op.col]
  rw [h₁, col_linesOps L b.X hX]
  simp only [colAfter, List.foldl_cons, List.foldl_nil, Op.col]
  split <;> omega

theorem col_drawOps (L : Lib) (x y : Int) (bs : List Block) (hX : ∀ b ∈ bs, 0 ≤ b.X) :
    colAfter L 0 (spec.drawOps L x y bs) = 0 := by
  induction bs generalizing x y with
  | nil => rfl
  | cons b bs ih =>
    rw [spec.drawOps, colAfter_append, col_blockOps L x y b (hX b (List.mem_cons_self _ _))]
    exact ih _ _ (fun c hc => hX c (List.mem_cons_of_mem _ hc))

/-- C6 (column bookkeeping): for every renderer state whose blocks have
`X ≥ 0`, split the sorted frame at any block `b` and the lines of `b` at any
line `l`. The output is the preamble, the pieces of the blocks before `b`, the
pieces of `b` and the pieces of the blocks after it. With the block loop
started at column 0: the iteration of `b` starts at column 0; the text of `l`
starts at column `b.X`, and after its move-back the column is `b.X` again;
the running `x` after `b` is at least `b.X`; after the move-back by the
running `x` that ends `b` the column is 0. -/
theorem flush_columns (L : Lib) (r : blockRenderer) (hX : ∀ b ∈ r.buffer, 0 ≤ b.X)
    (front : List Block) (b : Block) (rest : List Block)
    (hsplit : L.sort r.buffer = front ++ b :: rest) :
    lastWrite (r.flush L)
      = bytesOf ([Op.up r.linesRendered]
          ++ spec.growOps (spec.requiredHeight (L.sort r.buffer)) r.linesRendered
          ++ (spec.drawOps L 0 0 front
            ++ spec.blockOps L (spec.runX L 0 front) (spec.runY 0 front) b
            ++ spec.drawOps L (spec.runX L 0 (front ++ [b])) (spec.runY 0 (front ++ [b])) rest)) ∧
    colAfter L 0 (spec.drawOps L 0 0 front) = 0 ∧
    (∀ above l below, b.lines = above ++ l :: below →
      spec.blockOps L (spec.runX L 0 front) (spec.runY 0 front) b
        = [Op.up (spec.runY 0 front), Op.forward b.X, Op.down b.Y] ++ spec.linesOps L above
          ++ [Op.down 1, Op.text l, Op.back (spec.w L l)] ++ spec.linesOps L below
          ++ [Op.back (spec.runX L 0 (front ++ [b]))] ∧
      colAfter L 0 (spec.drawOps L 0 0 front
        ++ ([Op.up (spec.runY 0 front), Op.forward b.X, Op.down b.Y] ++ spec.linesOps L above
          ++ [Op.down 1])) = b.X ∧
      colAfter L 0 (spec.drawOps L 0 0 front
        ++ ([Op.up (spec.runY 0 front), Op.forward b.X, Op.down b.Y] ++ spec.linesOps L above
          ++ [Op.down 1, Op.text l])) = b.X + spec.w L l ∧
      colAfter L 0 (spec.drawOps L 0 0 front
        ++ ([Op.up (spec.runY 0 front), Op.forward b.X, Op.down b.Y] ++ spec.linesOps L above
          ++ [Op.down 1, Op.text l, Op.back (spec.w L l)])) = b.X) ∧
    b.X ≤ spec.runX L 0 (front ++ [b]) ∧
    colAfter L 0 (spec.drawOps L 0 0 front
      ++ spec.blockOps L (spec.runX L 0 front) (spec.runY 0 front) b) = 0 := by
  have hp := L.sort_perm r.buffer
  have hXs : ∀ c ∈ front ++ b :: rest, 0 ≤ c.X := by
    intro c hc; rw [← hsplit] at hc; exact hX c (hp.mem_iff.mp hc)
  have hb : 0 ≤ b.X := hXs b (by simp)
  have hfront : colAfter L 0 (spec.drawOps L 0 0 front) = 0 :=
    col_drawOps L 0 0 front (fun c hc => hXs c (by simp [hc]))
  have hhead : ∀ above : List String,
      colAfter L 0 ([Op.up (spec.runY 0 front), Op.forward b.X, Op.down b.Y]
        ++ spec.linesOps L above) = b.X := by
    intro above
    rw [colAfter_append]
    have h₁ : colAfter L 0 [Op.up (spec.runY 0 front), Op.forward b.X, Op.down b.Y] = b.X := by
      simp [colAfter, Op.col]
    rw [h₁, col_linesOps L b.X hb]
  have hw : ∀ l, 0 ≤ spec.w L l := w_nonneg L
  refine ⟨?_, hfront, ?_, ?_, ?_⟩
  · rw [flush_lastWrite, hsplit]
    simp only [spec.flushOps, drawOps_append, spec.drawOps, runX_append, runY_append, spec.runX,
      spec.runY, List.append_assoc, List.append_nil]
  · intro above l below hl
    refine ⟨?_, ?_, ?_, ?_⟩
    · simp only [spec.blockOps, hl, linesOps_append, spec.linesOps, spec.lineOps, runX_append,
        spec.runX, spec.xNext, List.append_assoc, List.cons_append, List.nil_append]
    · rw [colAfter_append, hfront, colAfter_append, hhead]
      simp [colAfter, Op.col]
    · rw [colAfter_append, hfront, colAfter_append, hhead]
      simp [colAfter, Op.col, spec.w]
    · rw [colAfter_append, hfront, colAfter_append, hhead]
      have := hw l
      simp only [colAfter, List.foldl_cons, List.foldl_nil, Op.col]
      simp only [spec.w] at this ⊢
      split <;> omega
  · rw [runX_append]
    simp only [spec.runX]
    exact xNext_ge_X L _ b
  · rw [colAfter_append, hfront]
    exact col_blockOps L _ _ b hb

/-- Witness of C6: the second block of the worked example, whose line starts
at column 4 and whose iteration ends at column 0. -/
theorem flush_columns_witness :
    (∀ b ∈ exampleFrame, 0 ≤ b.X) ∧
    colAfter goLib 0 (spec.drawOps goLib 0 0 [⟨1, 1, 0, "Hi\nThere", []⟩]
      ++ spec.blockOps goLib (spec.runX goLib 0 [⟨1, 1, 0, "Hi\nThere", []⟩])
          (spec.runY 0 [⟨1, 1, 0, "Hi\nThere", []⟩]) ⟨4, 4, 0, "Hello", []⟩) = 0 ∧
    (4 : Int) ≤ spec.runX goLib 0 ([⟨1, 1, 0, "Hi\nThere", []⟩] ++ [⟨4, 4, 0, "Hello", []⟩]) :=
  have h := flush_columns goLib ⟨[], exampleFrame, 0, 80, 24⟩ (by decide)
    [⟨1, 1, 0, "Hi\nThere", []⟩] ⟨4, 4, 0, "Hello", []⟩ [] (by decide)
  ⟨by decide, h.2.2.2.2, h.2.2.2.1⟩

/-! ## Decimal parameters -/

theorem digitChar_lt_ten :
    ∀ k, k < 10 → (Nat.digitChar k).isDigit = true ∧ (Nat.digitChar k).toNat - 48 = k ∧
      (k ≠ 0 → Nat.digitChar k ≠ '0') := by
  decide

theorem toDigitsCore_acc (f : Nat) : ∀ (n : Nat) (ds : List Char),
    Nat.toDigitsCore 10 f n ds = Nat.toDigitsCore 10 f n [] ++ ds := by
  induction f with
  | zero => intro n ds; simp [Nat.toDigitsCore]
  | succ f ih =>
    intro n ds
    simp only [Nat.toDigitsCore]
    split
    · simp
    · rw [ih (n / 10) (Nat.digitChar (n % 10) :: ds), ih (n / 10) [Nat.digitChar (n % 10)]]
      simp

theorem decimalValue_concat (ds : List Char) (c : Char) :
    decimalValue (ds ++ [c]) = 10 * decimalValue ds + (c.toNat - 48) := by
  simp [decimalValue, List.foldl_append]

theorem toDigitsCore_spec (f : Nat) : ∀ n, n < f →
    decimalValue (Nat.toDigitsCore 10 f n []) = n ∧
    (∀ c ∈ Nat.toDigitsCore 10 f n [], c.isDigit = true) ∧
    Nat.toDigitsCore 10 f n [] ≠ [] ∧
    (n ≠ 0 → (Nat.toDigitsCore 10 f n []).head? ≠ some '0') := by
  induction f with
  | zero => intro n h; omega
  | succ f ih =>
    intro n hn
    have hd := digitChar_lt_ten (n % 10) (Nat.mod_lt _ (by decide))
    simp only [Nat.toDigitsCore]
    split
    · rename_i h0
      refine ⟨?_, ?_, by simp, ?_⟩
      · simp only [decimalValue, List.foldl_cons, List.foldl_nil]; omega
      · intro c hc; simp at hc; subst hc; exact hd.1
      · intro hn0
        have : n % 10 ≠ 0 := by omega
        simpa using hd.2.2 this
    · rename_i h0
      obtain ⟨h₁, h₂, h₃, h₄⟩ := ih (n / 10) (by omega)
      rw [toDigitsCore_acc]
      refine ⟨?_, ?_, by simp, ?_⟩
      · rw [decimalValue_concat, h₁]; omega
      · intro c hc
        rcases List.mem_append.mp hc with h | h
        · exact h₂ c h
        · simp at h; subst h; exact hd.1
      · intro _
        cases hcs : Nat.toDigitsCore 10 f (n / 10) [] with
        | nil => exact absurd hcs h₃
        | cons c cs =>
          have := h₄ h0
          rw [hcs] at this
          simpa using this

theorem repr_spec (n : Nat) :
    decimalValue (Nat.repr n).data = n ∧ (∀ c ∈ (Nat.repr n).data, c.isDigit = true) ∧
    (Nat.repr n).data ≠ [] ∧ (n ≠ 0 → (Nat.repr n).data.head? ≠ some '0') := by
  have h := toDigitsCore_spec (n + 1) n (Nat.lt_succ_self n)
  simpa [Nat.repr, Nat.toDigits, List.asString] using h

theorem fmtD_nonneg (n : Int) (h : 0 ≤ n) : fmtD n = Nat.repr n.toNat := by
  obtain ⟨k, rfl⟩ := Int.eq_ofNat_of_zero_le h
  rfl

theorem isDigit_ne_LF (c : Char) (h : c.isDigit = true) : c ≠ LF := by
  rintro rfl
  exact absurd h (by decide)

theorem fmtD_no_LF (n : Int) : LF ∉ (fmtD n).data := by
  cases n with
  | ofNat k =>
    intro h
    exact isDigit_ne_LF _ ((repr_spec k).2.1 _ h) rfl
  | negSucc k =>
    intro h
    have h' : LF ∈ ("-" ++ Nat.repr (k + 1)).data := h
    rw [String.data_append] at h'
    rcases List.mem_append.mp h' with h | h
    · exact absurd h (by decide)
    · exact isDigit_ne_LF _ ((repr_spec (k + 1)).2.1 _ h) rfl

/-! ## Line feeds -/

theorem splitOnP_no_sep (p : Char → Bool) (xs : List Char) :
    ∀ l ∈ xs.splitOnP p, ∀ x ∈ l, p x = false := by
  induction xs with
  | nil => intro l hl x hx; simp at hl; subst hl; simp at hx
  | cons a as ih =>
    intro l hl x hx
    rw [List.splitOnP_cons] at hl
    split at hl
    · rcases List.mem_cons.mp hl with h | h
      · subst h; simp at hx
      · exact ih l h x hx
    · rename_i hpa
      cases hs : as.splitOnP p with
      | nil => rw [hs] at hl; simp [List.modifyHead] at hl
      | cons hd tl =>
        rw [hs] at hl ih
        simp only [List.modifyHead] at hl
        rcases List.mem_cons.mp hl with h | h
        · subst h
          rcases List.mem_cons.mp hx with h' | h'
          · subst h'; simpa using hpa
          · exact ih hd (List.mem_cons_self _ _) x h'
        · exact ih l (List.mem_cons_of_mem _ h) x hx

theorem lines_no_LF (b : Block) : ∀ line ∈ b.lines, LF ∉ line.data := by
  intro line hl hmem
  simp only [Block.lines, Split, List.mem_map, List.splitOn] at hl
  obtain ⟨cs, hcs, rfl⟩ := hl
  have := splitOnP_no_sep _ _ cs hcs LF hmem
  simp [LF] at this

theorem no_LF_append (a b : String) (ha : LF ∉ a.data) (hb : LF ∉ b.data) :
    LF ∉ (a ++ b).data := by
  rw [String.data_append, List.mem_append, not_or]
  exact ⟨ha, hb⟩

theorem csi_no_LF (n : Int) (letter : String) (hl : LF ∉ letter.data) :
    LF ∉ (CSI ++ fmtD n ++ letter).data :=
  no_LF_append _ _ (no_LF_append _ _ (by decide) (fmtD_no_LF n)) hl

theorem op_no_LF (o : Op) (hc : o ≠ Op.crlf) (ht : ∀ s, o = Op.text s → LF ∉ s.data) :
    LF ∉ o.bytes.data := by
  cases o with
  | up n => exact csi_no_LF n "A" (by decide)
  | down n => exact csi_no_LF n "B" (by decide)
  | forward n => exact csi_no_LF n "C" (by decide)
  | back n => exact csi_no_LF n "D" (by decide)
  | crlf => exact absurd rfl hc
  | text s => exact ht s rfl

theorem ops_no_LF (ops : List Op) (hc : Op.crlf ∉ ops)
    (ht : ∀ s, Op.text s ∈ ops → LF ∉ s.data) : LF ∉ (bytesOf ops).data := by
  induction ops with
  | nil => simp [bytesOf]
  | cons o os ih =>
    rw [bytesOf]
    refine no_LF_append _ _ (op_no_LF o ?_ ?_) (ih ?_ ?_)
    · rintro rfl; exact hc (List.mem_cons_self _ _)
    · rintro s rfl; exact ht s (List.mem_cons_self _ _)
    · exact fun h => hc (List.mem_cons_of_mem _ h)
    · exact fun s h => ht s (List.mem_cons_of_mem _ h)

theorem linesOps_no_LF (L : Lib) (ls : List String) (h : ∀ l ∈ ls, LF ∉ l.data) :
    LF ∉ (bytesOf (spec.linesOps L ls)).data := by
  induction ls with
  | nil => simp [spec.linesOps, bytesOf]
  | cons l ls ih =>
    rw [spec.linesOps, bytesOf_append]
    refine no_LF_append _ _ (ops_no_LF _ (by simp [spec.lineOps]) ?_)
      (ih (fun m hm => h m (List.mem_cons_of_mem _ hm)))
    intro s hs
    simp only [spec.lineOps, List.mem_cons, List.mem_singleton, Op.text.injEq,
      List.not_mem_nil, or_false, false_or, reduceCtorEq] at hs
    subst hs
    exact h _ (List.mem_cons_self _ _)

theorem blockOps_no_LF (L : Lib) (x y : Int) (b : Block) :
    LF ∉ (bytesOf (spec.blockOps L x y b)).data := by
  rw [spec.blockOps, bytesOf_append, bytesOf_append]
  refine no_LF_append _ _ (no_LF_append _ _ (ops_no_LF _ (by simp) (by simp))
    (linesOps_no_LF L b.lines (lines_no_LF b))) (ops_no_LF _ (by simp) (by simp))

theorem drawOps_no_LF (L : Lib) (x y : Int) (bs : List Block) :
    LF ∉ (bytesOf (spec.drawOps L x y bs)).data := by
  induction bs generalizing x y with
  | nil => simp [spec.drawOps, bytesOf]
  | cons b bs ih =>
    rw [spec.drawOps, bytesOf_append]
    exact no_LF_append _ _ (blockOps_no_LF L x y b) (ih _ _)

theorem repeat_crlf_count (n : Nat) : (repeatNat "\r\n" n).data.count LF = n := by
  induction n with
  | zero => rfl
  | succ k ih =>
    rw [repeatNat, String.data_append, List.count_append, ih]
    have : List.count LF ("\r\n" : String).data = 1 := by decide
    omega

theorem up_bytes (n : Int) : bytesOf [Op.up n] = CSI ++ fmtD n ++ "A" := by
  simp [bytesOf, Op.bytes]

/-- C7 (viewport growth): for every renderer state, with `p` the previous
`linesRendered` and `H` the required height of the sorted frame (which is what
`flush` records, and is never negative): if `H > p` the output is `up(p)`,
directly followed by `H` pairs `"\r\n"`, directly followed by `up(H)`, then
the blocks; if not, the output is `up(p)` directly followed by the blocks and
contains no line feed. The number of line feeds in the output is `H` in the
first case and 0 in the second, and no line of a block contains a line feed. -/
theorem flush_growth (L : Lib) (r : blockRenderer) :
    (r.flush L).linesRendered = spec.requiredHeight (L.sort r.buffer) ∧
    0 ≤ spec.requiredHeight (L.sort r.buffer) ∧
    (spec.requiredHeight (L.sort r.buffer) > r.linesRendered →
      lastWrite (r.flush L)
        = (CSI ++ fmtD r.linesRendered ++ "A")
          ++ repeatNat "\r\n" (spec.requiredHeight (L.sort r.buffer)).toNat
          ++ (CSI ++ fmtD (spec.requiredHeight (L.sort r.buffer)) ++ "A")
          ++ bytesOf (spec.drawOps L 0 0 (L.sort r.buffer))) ∧
    (¬ spec.requiredHeight (L.sort r.buffer) > r.linesRendered →
      lastWrite (r.flush L)
        = (CSI ++ fmtD r.linesRendered ++ "A")
          ++ bytesOf (spec.drawOps L 0 0 (L.sort r.buffer)) ∧
      LF ∉ (lastWrite (r.flush L)).data) ∧
    (lastWrite (r.flush L)).data.count LF
      = (if spec.requiredHeight (L.sort r.buffer) > r.linesRendered
          then (spec.requiredHeight (L.sort r.buffer)).toNat else 0) ∧
    (∀ (b : Block), ∀ line ∈ b.lines, LF ∉ line.data) ∧
    LF ∉ (bytesOf (spec.drawOps L 0 0 (L.sort r.buffer))).data := by
  have hup := csi_no_LF r.linesRendered "A" (by decide)
  have hupH := csi_no_LF (spec.requiredHeight (L.sort r.buffer)) "A" (by decide)
  have hdraw := drawOps_no_LF L 0 0 (L.sort r.buffer)
  have hgrow : spec.requiredHeight (L.sort r.buffer) > r.linesRendered →
      lastWrite (r.flush L)
        = (CSI ++ fmtD r.linesRendered ++ "A")
          ++ repeatNat "\r\n" (spec.requiredHeight (L.sort r.buffer)).toNat
          ++ (CSI ++ fmtD (spec.requiredHeight (L.sort r.buffer)) ++ "A")
          ++ bytesOf (spec.drawOps L 0 0 (L.sort r.buffer)) := by
    intro h
    rw [flush_lastWrite]
    simp only [spec.flushOps, spec.growOps, if_pos h, bytesOf_append, up_bytes,
      bytesOf_replicate_crlf, String.append_assoc]
  have hstay : ¬ spec.requiredHeight (L.sort r.buffer) > r.linesRendered →
      lastWrite (r.flush L)
        = (CSI ++ fmtD r.linesRendered ++ "A")
          ++ bytesOf (spec.drawOps L 0 0 (L.sort r.buffer)) := by
    intro h
    rw [flush_lastWrite]
    simp [spec.flushOps, spec.growOps, if_neg h, bytesOf, Op.bytes, String.append_assoc]
  refine ⟨flush_linesRendered L r, requiredHeight_nonneg _, hgrow, ?_, ?_, lines_no_LF, hdraw⟩
  · intro h
    refine ⟨hstay h, ?_⟩
    rw [hstay h, String.data_append, List.mem_append, not_or]
    exact ⟨hup, hdraw⟩
  · split
    · rename_i h
      rw [hgrow h]
      simp only [String.data_append, List.count_append] at hup hupH ⊢
      rw [repeat_crlf_count]
      have e₁ := List.count_eq_zero.mpr hdraw
      have e₂ := List.count_eq_zero.mpr hup
      have e₃ := List.count_eq_zero.mpr hupH
      simp only [String.data_append, List.count_append] at e₂ e₃
      omega
    · rename_i h
      rw [hstay h]
      simp only [String.data_append, List.count_append] at hup ⊢
      have e₁ := List.count_eq_zero.mpr hdraw
      have e₂ := List.count_eq_zero.mpr hup
      simp only [String.data_append, List.count_append] at e₂
      omega

/-- Witness of C7: the worked example grows a viewport of height 0 by 5 line
breaks, and drawn again from height 5 it writes no line feed. -/
theorem flush_growth_witness :
    spec.requiredHeight (goLib.sort exampleFrame) > 0 ∧
    ¬ spec.requiredHeight (goLib.sort exampleFrame) > 5 ∧
    lastWrite (blockRenderer.flush goLib ⟨[], exampleFrame, 0, 80, 24⟩)
      = (CSI ++ fmtD 0 ++ "A")
        ++ repeatNat "\r\n" (spec.requiredHeight (goLib.sort exampleFrame)).toNat
        ++ (CSI ++ fmtD (spec.requiredHeight (goLib.sort exampleFrame)) ++ "A")
        ++ bytesOf (spec.drawOps goLib 0 0 (goLib.sort exampleFrame)) ∧
    LF ∉ (lastWrite (blockRenderer.flush goLib ⟨[], exampleFrame, 5, 80, 24⟩)).data :=
  ⟨by decide, by decide,
   (flush_growth goLib ⟨[], exampleFrame, 0, 80, 24⟩).2.2.1 (by decide),
   ((flush_growth goLib ⟨[], exampleFrame, 5, 80, 24⟩).2.2.2.1 (by decide)).2⟩

/-! ## Wire format -/

/-- C8 (wire format of the cursor encoder): for every buffer content and every
`n ≥ 0`, `cursorUp`, `cursorDown`, `cursorForward` and `cursorBack` leave the
bytes of the buffer in place and append `ESC [`, the decimal digits of `n` and
the letter `A`, `B`, `C`, `D` respectively. The digits are decimal digit
characters, at least one, without a leading zero unless `n = 0`, and denote
`n`. For `n = 0` the sequence with parameter `0` is appended. -/
theorem cursor_wire_format (b : blockBuffer) (n : Int) (h : 0 ≤ n) :
    (b.cursorUp n).Buffer = b.Buffer ++ ("\x1b[" ++ Nat.repr n.toNat ++ "A") ∧
    (b.cursorDown n).Buffer = b.Buffer ++ ("\x1b[" ++ Nat.repr n.toNat ++ "B") ∧
    (b.cursorForward n).Buffer = b.Buffer ++ ("\x1b[" ++ Nat.repr n.toNat ++ "C") ∧
    (b.cursorBack n).Buffer = b.Buffer ++ ("\x1b[" ++ Nat.repr n.toNat ++ "D") ∧
    (decimalValue (Nat.repr n.toNat).data : Int) = n ∧
    (∀ c ∈ (Nat.repr n.toNat).data, c.isDigit = true) ∧
    (Nat.repr n.toNat).data ≠ [] ∧
    (n ≠ 0 → (Nat.repr n.toNat).data.head? ≠ some '0') ∧
    (b.cursorUp 0).Buffer = b.Buffer ++ "\x1b[0A" ∧
    (b.cursorDown 0).Buffer = b.Buffer ++ "\x1b[0B" ∧
    (b.cursorForward 0).Buffer = b.Buffer ++ "\x1b[0C" ∧
    (b.cursorBack 0).Buffer = b.Buffer ++ "\x1b[0D" := by
  obtain ⟨h₁, h₂, h₃, h₄⟩ := repr_spec n.toNat
  have hf := fmtD_nonneg n h
  refine ⟨?_, ?_, ?_, ?_, ?_, h₂, h₃, ?_, rfl, rfl, rfl, rfl⟩
  · simp only [blockBuffer.cursorUp, blockBuffer.Fprintf, hf]; rfl
  · simp only [blockBuffer.cursorDown, blockBuffer.Fprintf, hf]; rfl
  · simp only [blockBuffer.cursorForward, blockBuffer.Fprintf, hf]; rfl
  · simp only [blockBuffer.cursorBack, blockBuffer.Fprintf, hf]; rfl
  · rw [h₁]; omega
  · intro hn; exact h₄ (by omega)

/-- Witness of C8: the parameter 12 appended to a buffer that holds `ab`. -/
theorem cursor_wire_format_witness :
    (0 : Int) ≤ 12 ∧
    (blockBuffer.cursorUp ⟨"ab"⟩ 12).Buffer = "ab" ++ ("\x1b[" ++ Nat.repr (12 : Int).toNat ++ "A") ∧
    (blockBuffer.cursorBack ⟨"ab"⟩ 12).Buffer = "ab\x1b[12D" :=
  ⟨by decide, (cursor_wire_format ⟨"ab"⟩ 12 (by decide)).1, by decide⟩

/-! ## Printable width -/

theorem isParam_spec (c : Char) (h : isParam c = true) :
    c ≠ Marker ∧ IsTerminator c = false := by
  simp only [isParam, Bool.or_eq_true, Bool.and_eq_true, decide_eq_true_eq] at h
  constructor
  · rintro rfl
    have e : Marker.toNat = 27 := by decide
    omega
  · simp only [IsTerminator, Bool.or_eq_false_iff, Bool.and_eq_false_iff, decide_eq_false_iff_not]
    omega

theorem width_plain (rw : Char → Nat) (cs : List Char) (n : Nat)
    (h : cs.all (fun c => decide (c ≠ Marker)) = true) :
    cs.foldl (PrintableRuneWidth.step rw) (n, false) = (n + (cs.map rw).sum, false) := by
  induction cs generalizing n with
  | nil => simp
  | cons c cs ih =>
    simp only [List.all_cons, Bool.and_eq_true, decide_eq_true_eq] at h
    rw [List.foldl_cons]
    have hstep : PrintableRuneWidth.step rw (n, false) c = (n + rw c, false) := by
      simp [PrintableRuneWidth.step, h.1]
    rw [hstep, ih _ h.2]
    simp [Nat.add_assoc]

theorem width_params (rw : Char → Nat) (ps : List Char) (n : Nat)
    (h : ps.all isParam = true) :
    ps.foldl (PrintableRuneWidth.step rw) (n, true) = (n, true) := by
  induction ps with
  | nil => rfl
  | cons c cs ih =>
    simp only [List.all_cons, Bool.and_eq_true] at h
    obtain ⟨h₁, h₂⟩ := isParam_spec c h.1
    rw [List.foldl_cons]
    have hstep : PrintableRuneWidth.step rw (n, true) c = (n, true) := by
      simp [PrintableRuneWidth.step, h₁, h₂]
    rw [hstep, ih h.2]

theorem width_styled (rw : Char → Nat) (s : Styled) (n : Nat) (h : s.wellFormed = true) :
    s.chars.foldl (PrintableRuneWidth.step rw) (n, false) = (n + s.visualWidth rw, false) := by
  cases s with
  | plain cs => exact width_plain rw cs n h
  | style ps =>
    have h₁ : PrintableRuneWidth.step rw (n, false) Marker = (n, true) := by
      simp [PrintableRuneWidth.step]
    have h₂ : PrintableRuneWidth.step rw (n, true) '[' = (n, true) := by
      have e₁ : ('[' : Char) ≠ Marker := by decide
      have e₂ : IsTerminator '[' = false := by decide
      simp [PrintableRuneWidth.step, e₁, e₂]
    have h₃ : PrintableRuneWidth.step rw (n, true) 'm' = (n, false) := by
      have e₁ : ('m' : Char) ≠ Marker := by decide
      have e₂ : IsTerminator 'm' = true := by decide
      simp [PrintableRuneWidth.step, e₁, e₂]
    simp only [Styled.chars, List.foldl_cons, List.foldl_append, List.foldl_nil, h₁, h₂,
      width_params rw ps n h, h₃, Styled.visualWidth, Nat.add_zero]

theorem width_styledText (rw : Char → Nat) (ss : List Styled) (n : Nat)
    (h : ∀ s ∈ ss, s.wellFormed = true) :
    (styledText ss).foldl (PrintableRuneWidth.step rw) (n, false)
      = (n + visualWidth rw ss, false) := by
  induction ss generalizing n with
  | nil => rfl
  | cons s ss ih =>
    rw [styledText, List.foldl_append, width_styled rw s n (h s (List.mem_cons_self _ _)),
      ih _ (fun t ht => h t (List.mem_cons_of_mem _ ht)), visualWidth, Nat.add_assoc]

/-- C9 (printable-width correctness): for every block, running `x` and line,
the loop body of `flush` appends `down(1)`, the text of the line and a
move-back whose parameter is `PrintableRuneWidth` of the line, and raises `x`
to the maximum of `x` and `block.X` plus that same width. That width is the
visual width: for a text made of visible characters and style sequences
`ESC [ params m` it is the sum of the cell widths of the visible characters,
the sequences counting 0. The bold `Hi` is 10 bytes and 10 runes long, and
where `H` and `i` are one cell wide its move-back is `ESC[2D`. -/
theorem flush_uses_printable_width (L : Lib) :
    (∀ (block : Block) (out : blockBuffer) (x : Int) (line : String),
      flush.line L block (out, x) line
        = (⟨out.Buffer ++ "\x1b[1B" ++ line
              ++ ("\x1b[" ++ fmtD (PrintableRuneWidth L.RuneWidth line) ++ "D")⟩,
            tea.max x (block.X + (PrintableRuneWidth L.RuneWidth line : Int)))) ∧
    (∀ ss : List Styled, (∀ s ∈ ss, s.wellFormed = true) →
      PrintableRuneWidth L.RuneWidth (String.mk (styledText ss)) = visualWidth L.RuneWidth ss) ∧
    String.mk (styledText [Styled.style ['1'], Styled.plain ['H', 'i'], Styled.style ['0']])
      = "\x1b[1mHi\x1b[0m" ∧
    ("\x1b[1mHi\x1b[0m" : String).utf8ByteSize = 10 ∧
    ("\x1b[1mHi\x1b[0m" : String).length = 10 ∧
    (L.RuneWidth 'H' = 1 → L.RuneWidth 'i' = 1 →
      PrintableRuneWidth L.RuneWidth "\x1b[1mHi\x1b[0m" = 2 ∧
      ∀ (block : Block) (out : blockBuffer) (x : Int),
        flush.line L block (out, x) "\x1b[1mHi\x1b[0m"
          = (⟨out.Buffer ++ "\x1b[1B" ++ "\x1b[1mHi\x1b[0m" ++ "\x1b[2D"⟩,
              tea.max x (block.X + 2))) := by
  have hline : ∀ (block : Block) (out : blockBuffer) (x : Int) (line : String),
      flush.line L block (out, x) line
        = (⟨out.Buffer ++ "\x1b[1B" ++ line
              ++ ("\x1b[" ++ fmtD (PrintableRuneWidth L.RuneWidth line) ++ "D")⟩,
            tea.max x (block.X + (PrintableRuneWidth L.RuneWidth line : Int))) := by
    intro block out x line
    have e : CSI ++ fmtD 1 ++ "B" = "\x1b[1B" := by decide
    simp only [flush.line, blockBuffer.cursorDown, blockBuffer.cursorBack, blockBuffer.Fprintf,
      blockBuffer.WriteString, e]
    rfl
  have hstyled : ∀ ss : List Styled, (∀ s ∈ ss, s.wellFormed = true) →
      PrintableRuneWidth L.RuneWidth (String.mk (styledText ss))
        = visualWidth L.RuneWidth ss := by
    intro ss h
    simp [PrintableRuneWidth, width_styledText L.RuneWidth ss 0 h]
  refine ⟨hline, hstyled, by decide, by decide, by decide, ?_⟩
  intro hH hi
  have hw : PrintableRuneWidth L.RuneWidth "\x1b[1mHi\x1b[0m" = 2 := by
    have e : ("\x1b[1mHi\x1b[0m" : String)
        = String.mk (styledText [Styled.style ['1'], Styled.plain ['H', 'i'], Styled.style ['0']]) := by
      decide
    rw [e, hstyled _ (by decide)]
    simp [visualWidth, Styled.visualWidth, hH, hi]
  refine ⟨hw, ?_⟩
  intro block out x
  rw [hline, hw]
  rfl

/-- Witness of C9: with the ASCII width table, the bold `Hi` measures 2 and a
frame made of that one line at column 3 moves back by 2 after the text. -/
theorem flush_uses_printable_width_witness :
    goLib.RuneWidth 'H' = 1 ∧ goLib.RuneWidth 'i' = 1 ∧
    PrintableRuneWidth goLib.RuneWidth "\x1b[1mHi\x1b[0m" = 2 ∧
    lastWrite (blockRenderer.flush goLib ⟨[], [⟨3, 0, 0, "\x1b[1mHi\x1b[0m", []⟩], 0, 80, 24⟩)
      = "\x1b[0A\r\n\x1b[1A" ++ "\x1b[0A\x1b[3C\x1b[0B" ++ "\x1b[1B" ++ "\x1b[1mHi\x1b[0m"
        ++ "\x1b[2D" ++ "\x1b[5D" :=
  ⟨by decide, by decide,
   ((flush_uses_printable_width goLib).2.2.2.2.2 (by decide) (by decide)).1,
   by decide⟩

/-! ## Submission -/

/-- C10 (submission is wholesale replacement): for every renderer state and
frame `b`, `write b` makes the pending frame exactly `b`, in the order given,
and leaves `linesRendered`, `width`, `height` and the output untouched; hence
for all frames `A` and `B`, `write A; write B; flush` ends in the same state
(output and `linesRendered` included) as `write B; flush`, and neither `write`
nor `handleMessages` changes `linesRendered`. -/
theorem write_replaces (L : Lib) (r : blockRenderer) (A B : List Block) (msg : Msg) :
    (r.write B).buffer = B ∧
    (r.write B).linesRendered = r.linesRendered ∧
    (r.write B).width = r.width ∧
    (r.write B).height = r.height ∧
    (r.write B).out = r.out ∧
    (r.write A).write B = r.write B ∧
    ((r.write A).write B).flush L = (r.write B).flush L ∧
    lastWrite (((r.write A).write B).flush L) = lastWrite ((r.write B).flush L) ∧
    (((r.write A).write B).flush L).out
      = r.out ++ [bytesOf (spec.flushOps L r.linesRendered (L.sort B))] ∧
    (((r.write A).write B).flush L).linesRendered = spec.requiredHeight (L.sort B) ∧
    (r.handleMessages msg).linesRendered = r.linesRendered := by
  refine ⟨rfl, rfl, rfl, rfl, rfl, rfl, rfl, rfl, ?_, ?_, ?_⟩
  · rw [flush_out]; rfl
  · rw [flush_linesRendered]; rfl
  · cases msg <;> rfl

/-! ## Shutdown -/

theorem requiredHeight_perm (l₁ l₂ : List Block) (h : l₁.Perm l₂) :
    spec.requiredHeight l₁ = spec.requiredHeight l₂ := by
  induction h with
  | nil => rfl
  | cons b _ ih => simp only [spec.requiredHeight, ih]
  | swap a b l => simp only [spec.requiredHeight, max_eq]; omega
  | trans _ _ ih₁ ih₂ => exact ih₁.trans ih₂

theorem requiredHeight_sort (L : Lib) (frame : List Block) :
    spec.requiredHeight (L.sort frame) = spec.requiredHeight frame :=
  requiredHeight_perm _ _ (L.sort_perm frame)

/-- C11 (shutdown flush): for every started renderer (its `done` channel made
and `listen` waiting), every pending frame `B` just submitted and every
current `linesRendered` `p`, `stop` with no tick in between returns after
exactly two events, in this order: one write, whose bytes are the encoding by
`flush` of `B` from `p`, and the send of the shutdown signal. The output
stream has received that one write more, `linesRendered` afterwards is the
required height of `B`, and the listener has discarded the ticker and closed
the channel. -/
theorem stop_flushes_once (L : Lib) (m : Machine) (B : List Block)
    (hd : m.done = Chan.made) (hl : m.listening = true) :
    ((m.write B).stop L).2 = Outcome.returned ∧
    ((m.write B).stop L).1.trace
      = m.trace ++ [Event.write (bytesOf (spec.flushOps L m.r.linesRendered (L.sort B))),
          Event.send] ∧
    ((m.write B).stop L).1.r.out
      = m.r.out ++ [bytesOf (spec.flushOps L m.r.linesRendered (L.sort B))] ∧
    ((m.write B).stop L).1.r.linesRendered = spec.requiredHeight B ∧
    ((m.write B).stop L).1.r = (m.r.write B).flush L ∧
    ((m.write B).stop L).1.ticker = false ∧
    ((m.write B).stop L).1.done = Chan.closed ∧
    ((m.write B).stop L).1.listening = false := by
  have hw : lastWrite ((m.r.write B).flush L)
      = bytesOf (spec.flushOps L m.r.linesRendered (L.sort B)) := by
    rw [flush_lastWrite]; rfl
  have ho : ((m.r.write B).flush L).out
      = m.r.out ++ [bytesOf (spec.flushOps L m.r.linesRendered (L.sort B))] := by
    rw [flush_out]; rfl
  have hh : ((m.r.write B).flush L).linesRendered = spec.requiredHeight B := by
    rw [flush_linesRendered]; exact requiredHeight_sort L B
  simp only [Machine.stop, Machine.flush, Machine.write, hd, hl, if_true, hw, ho, hh,
    List.append_assoc, List.singleton_append, and_self]

/-- Witness of C11: a renderer started, given the worked example and stopped
writes the frame once, then sends the signal. -/
theorem stop_flushes_once_witness :
    Machine.fresh.start.done = Chan.made ∧ Machine.fresh.start.listening = true ∧
    ((Machine.fresh.start.write exampleFrame).stop goLib).2 = Outcome.returned ∧
    ((Machine.fresh.start.write exampleFrame).stop goLib).1.trace
      = [Event.write ("\x1b[0A" ++ "\r\n\r\n\r\n\r\n\r\n" ++ "\x1b[5A"
          ++ "\x1b[0A\x1b[1C\x1b[1B" ++ "\x1b[1BHi\x1b[2D" ++ "\x1b[1BThere\x1b[5D" ++ "\x1b[6D"
          ++ "\x1b[2A\x1b[4C\x1b[4B" ++ "\x1b[1BHello\x1b[5D" ++ "\x1b[9D"), Event.send] ∧
    ((Machine.fresh.start.write exampleFrame).stop goLib).1.r.linesRendered = 5 :=
  ⟨rfl, rfl, (stop_flushes_once goLib Machine.fresh.start exampleFrame rfl rfl).1,
   by decide, by decide⟩

/-! ## Stored dimensions -/

/-- C12 (stored dimensions do not affect rendering): `handleMessages` with a
`WindowSizeMsg` sets `width` and `height` to the `Width` and `Height` of the
message and leaves the pending frame, `linesRendered` and the output alone;
any other message changes nothing; and two renderer states with the same
pending frame and `linesRendered`, whatever their `width` and `height`, write
the same bytes in `flush`, record the same `linesRendered` and leave the same
pending frame. -/
theorem dimensions_not_used (L : Lib) (r₁ r₂ : blockRenderer) (w h : Int)
    (hb : r₁.buffer = r₂.buffer) (hp : r₁.linesRendered = r₂.linesRendered) :
    (r₁.handleMessages (Msg.WindowSizeMsg w h)).width = w ∧
    (r₁.handleMessages (Msg.WindowSizeMsg w h)).height = h ∧
    (r₁.handleMessages (Msg.WindowSizeMsg w h)).buffer = r₁.buffer ∧
    (r₁.handleMessages (Msg.WindowSizeMsg w h)).linesRendered = r₁.linesRendered ∧
    (r₁.handleMessages (Msg.WindowSizeMsg w h)).out = r₁.out ∧
    r₁.handleMessages Msg.other = r₁ ∧
    lastWrite (r₁.flush L) = lastWrite (r₂.flush L) ∧
    (r₁.flush L).linesRendered = (r₂.flush L).linesRendered ∧
    (r₁.flush L).buffer = (r₂.flush L).buffer ∧
    (r₁.flush L).width = r₁.width ∧ (r₁.flush L).height = r₁.height ∧
    lastWrite ((r₁.handleMessages (Msg.WindowSizeMsg w h)).flush L) = lastWrite (r₁.flush L) := by
  refine ⟨rfl, rfl, rfl, rfl, rfl, rfl, ?_, ?_, ?_, rfl, rfl, ?_⟩
  · rw [flush_lastWrite, flush_lastWrite, hb, hp]
  · rw [flush_linesRendered, flush_linesRendered, hb]
  · rw [flush_buffer, flush_buffer, hb]
  · rw [flush_lastWrite, flush_lastWrite]; rfl

/-- Witness of C12: the worked example flushed in an 80 by 24 and in a 1 by 1
window. -/
theorem dimensions_not_used_witness :
    lastWrite (blockRenderer.flush goLib ⟨[], exampleFrame, 0, 80, 24⟩)
      = lastWrite (blockRenderer.flush goLib ⟨[], exampleFrame, 0, 1, 1⟩) ∧
    (blockRenderer.flush goLib ⟨[], exampleFrame, 0, 80, 24⟩).linesRendered
      = (blockRenderer.flush goLib ⟨[], exampleFrame, 0, 1, 1⟩).linesRendered :=
  ⟨(dimensions_not_used goLib ⟨[], exampleFrame, 0, 80, 24⟩ ⟨[], exampleFrame, 0, 1, 1⟩ 0 0
      rfl rfl).2.2.2.2.2.2.1,
   (dimensions_not_used goLib ⟨[], exampleFrame, 0, 80, 24⟩ ⟨[], exampleFrame, 0, 1, 1⟩ 0 0
      rfl rfl).2.2.2.2.2.2.2.1⟩

/-! ## Lock discipline -/

/-- C13 (lock discipline), evaluated on the accesses of each method. `write`
and the shutdown branch of `listen` touch the guarded fields only between
`Lock` and `Unlock`. `flush` never takes the mutex: its first access, the sort
of the pending frame, already happens with the mutex free, and so do its reads
of `linesRendered` and its assignment to it; the tick branch reads the timer
handle with the mutex free and then runs `flush`; `stop` runs `flush`. -/
theorem flush_not_locked :
    disciplined false accesses.write = true ∧
    disciplined false accesses.shutdown = true ∧
    disciplined false accesses.flush = false ∧
    disciplined false accesses.tick = false ∧
    disciplined false accesses.stop = false ∧
    Access.lock ∉ accesses.flush ∧
    accesses.flush.head? = some (Access.read Field.buffer) ∧
    disciplined false [Access.read Field.buffer] = false ∧
    disciplined false [Access.read Field.linesRendered] = false ∧
    disciplined false [Access.read Field.ticker] = false := by
  refine ⟨?_, ?_, ?_, ?_, ?_, ?_, ?_, ?_, ?_, ?_⟩ <;> decide

/-! ## Lifecycle misuse -/

/-- C14 as stated fails: `stop` on a renderer that was never started writes a
frame (the move-up of the empty frame) and then blocks forever on the send; it
does not panic. -/
theorem stop_never_started_blocks :
    Machine.fresh.done = Chan.isNil ∧
    (Machine.fresh.stop goLib).2 = Outcome.blocked ∧
    (Machine.fresh.stop goLib).2 ≠ Outcome.panicked ∧
    (Machine.fresh.stop goLib).1.trace = [Event.write "\x1b[0A", Event.send] ∧
    (Machine.fresh.stop goLib).1.r.out = ["\x1b[0A"] := by
  refine ⟨?_, ?_, ?_, ?_, ?_⟩ <;> decide

/-- C14 amended: every call of `stop` first writes the pending frame, so none
silently does nothing. On a renderer whose `done` channel is nil (never
started) it then blocks forever. On a started renderer the first `stop`
returns, and a second `stop` writes the pending frame once more and then
panics on the send on the closed channel. -/
theorem stop_misuse (L : Lib) (m : Machine) :
    (m.stop L).1.trace
      = m.trace ++ [Event.write (bytesOf (spec.flushOps L m.r.linesRendered (L.sort m.r.buffer))),
          Event.send] ∧
    (m.stop L).1.r.out
      = m.r.out ++ [bytesOf (spec.flushOps L m.r.linesRendered (L.sort m.r.buffer))] ∧
    (m.done = Chan.isNil → (m.stop L).2 = Outcome.blocked) ∧
    (m.done = Chan.closed → (m.stop L).2 = Outcome.panicked) ∧
    (m.done = Chan.made → m.listening = true →
      (m.stop L).2 = Outcome.returned ∧
      ((m.stop L).1.stop L).2 = Outcome.panicked ∧
      ((m.stop L).1.stop L).1.r.out
        = m.r.out ++ [bytesOf (spec.flushOps L m.r.linesRendered (L.sort m.r.buffer)),
            bytesOf (spec.flushOps L (spec.requiredHeight (L.sort m.r.buffer))
              (L.sort (L.sort m.r.buffer)))]) := by
  have hw := flush_lastWrite L m.r
  have ho := flush_out L m.r
  have ho₂ := flush_out L (m.r.flush L)
  rw [flush_linesRendered, flush_buffer, ho] at ho₂
  refine ⟨?_, ?_, ?_, ?_, ?_⟩
  · cases hd : m.done <;> cases hl : m.listening <;>
      simp [Machine.stop, Machine.flush, hd, hl, hw]
  · cases hd : m.done <;> cases hl : m.listening <;>
      simp [Machine.stop, Machine.flush, hd, hl, ho]
  · intro hd
    simp [Machine.stop, Machine.flush, hd]
  · intro hd
    simp [Machine.stop, Machine.flush, hd]
  · intro hd hl
    refine ⟨?_, ?_, ?_⟩
    · simp [Machine.stop, Machine.flush, hd, hl]
    · simp [Machine.stop, Machine.flush, hd, hl]
    · simp [Machine.stop, Machine.flush, hd, hl, ho₂]

/-- Witness of C14 amended: the fresh renderer has a nil channel and `stop`
blocks; started, its second `stop` panics. -/
theorem stop_misuse_witness :
    Machine.fresh.done = Chan.isNil ∧
    (Machine.fresh.stop goLib).2 = Outcome.blocked ∧
    Machine.fresh.start.done = Chan.made ∧ Machine.fresh.start.listening = true ∧
    ((Machine.fresh.start.stop goLib).1.stop goLib).2 = Outcome.panicked :=
  ⟨rfl, (stop_misuse goLib Machine.fresh).2.2.1 rfl, rfl, rfl,
   ((stop_misuse goLib Machine.fresh.start).2.2.2.2 rfl rfl).2.1⟩

/-! ## Full repaint -/

theorem textsOf_append (a b : List Op) : textsOf (a ++ b) = textsOf a ++ textsOf b := by
  induction a with
  | nil => rfl
  | cons o os ih => cases o <;> simp [textsOf, ih]

theorem textsOf_linesOps (L : Lib) (ls : List String) : textsOf (spec.linesOps L ls) = ls := by
  induction ls with
  | nil => rfl
  | cons l ls ih => simp [spec.linesOps, spec.lineOps, textsOf, ih]

theorem textsOf_blockOps (L : Lib) (x y : Int) (b : Block) :
    textsOf (spec.blockOps L x y b) = b.lines := by
  simp [spec.blockOps, textsOf_append, textsOf_linesOps, textsOf]

theorem textsOf_drawOps (L : Lib) (x y : Int) (bs : List Block) :
    textsOf (spec.drawOps L x y bs) = allLines bs := by
  induction bs generalizing x y with
  | nil => rfl
  | cons b bs ih => simp [spec.drawOps, textsOf_append, textsOf_blockOps, allLines, ih]

theorem flush_bytes_split (L : Lib) (r : blockRenderer) :
    lastWrite (r.flush L)
      = bytesOf ([Op.up r.linesRendered]
          ++ spec.growOps (spec.requiredHeight (L.sort r.buffer)) r.linesRendered)
        ++ bytesOf (spec.drawOps L 0 0 (L.sort r.buffer)) := by
  rw [flush_lastWrite, spec.flushOps, bytesOf_append]

/-- C15 (no cross-frame diffing): for every renderer state and any two
previous `linesRendered` values `p₁` and `p₂`, the two flushes record the same
`linesRendered`, and each output is its own preamble (`up(p)` and the growth
step if any) followed by one and the same block-drawing part. The texts of
that part are all the lines of all the blocks of the sorted frame, block after
block in Z order and line after line. -/
theorem flush_repaints_all (L : Lib) (r : blockRenderer) (p₁ p₂ : Int) :
    (blockRenderer.flush L { r with linesRendered := p₁ }).linesRendered
      = (blockRenderer.flush L { r with linesRendered := p₂ }).linesRendered ∧
    lastWrite (blockRenderer.flush L { r with linesRendered := p₁ })
      = bytesOf ([Op.up p₁] ++ spec.growOps (spec.requiredHeight (L.sort r.buffer)) p₁)
        ++ bytesOf (spec.drawOps L 0 0 (L.sort r.buffer)) ∧
    lastWrite (blockRenderer.flush L { r with linesRendered := p₂ })
      = bytesOf ([Op.up p₂] ++ spec.growOps (spec.requiredHeight (L.sort r.buffer)) p₂)
        ++ bytesOf (spec.drawOps L 0 0 (L.sort r.buffer)) ∧
    textsOf (spec.drawOps L 0 0 (L.sort r.buffer)) = allLines (L.sort r.buffer) ∧
    (L.sort r.buffer).Perm r.buffer ∧
    (L.sort r.buffer).Pairwise (fun a b => a.Z ≤ b.Z) ∧
    (∀ b ∈ r.buffer, ∀ l ∈ b.lines, l ∈ textsOf (spec.drawOps L 0 0 (L.sort r.buffer))) := by
  have hall : ∀ (bs : List Block), ∀ b ∈ bs, ∀ l ∈ b.lines, l ∈ allLines bs := by
    intro bs
    induction bs with
    | nil => intro b hb; simp at hb
    | cons a as ih =>
      intro b hb l hl
      rcases List.mem_cons.mp hb with h | h
      · subst h; exact List.mem_append_left _ hl
      · exact List.mem_append_right _ (ih b h l hl)
  refine ⟨?_, ?_, ?_, textsOf_drawOps L 0 0 _, L.sort_perm _, ?_, ?_⟩
  · rw [flush_linesRendered, flush_linesRendered]
  · exact flush_bytes_split L { r with linesRendered := p₁ }
  · exact flush_bytes_split L { r with linesRendered := p₂ }
  · exact (L.sort_sorted r.buffer).imp (fun {a b} h => by simpa [byZIndex.Less] using h)
  · intro b hb l hl
    rw [textsOf_drawOps]
    exact hall _ b ((L.sort_perm r.buffer).mem_iff.mpr hb) l hl

/-- Witness of C15: both lines of the lower block of `reversedFrame` are among
the texts drawn. -/
theorem flush_repaints_all_witness :
    (⟨2, 1, 0, "low\nest", []⟩ : Block) ∈ reversedFrame ∧
    "est" ∈ Block.lines ⟨2, 1, 0, "low\nest", []⟩ ∧
    "est" ∈ textsOf (spec.drawOps goLib 0 0 (goLib.sort reversedFrame)) ∧
    textsOf (spec.drawOps goLib 0 0 (goLib.sort reversedFrame)) = ["low", "est", "top"] :=
  ⟨by decide, by decide,
   (flush_repaints_all goLib ⟨[], reversedFrame, 0, 80, 24⟩ 0 7).2.2.2.2.2.2
     ⟨2, 1, 0, "low\nest", []⟩ (by decide) "est" (by decide),
   by decide⟩

/-! ## Movement parameters -/

theorem linesOps_wellFormed (L : Lib) (ls : List String) :
    ∀ op ∈ spec.linesOps L ls, op.wellFormed = true := by
  induction ls with
  | nil => intro op h; simp [spec.linesOps] at h
  | cons l ls ih =>
    intro op h
    rw [spec.linesOps] at h
    rcases List.mem_append.mp h with h | h
    · have hw := w_nonneg L l
      simp only [spec.lineOps, List.mem_cons, List.mem_singleton, List.not_mem_nil,
        or_false] at h
      rcases h with h | h | h <;> subst h <;> simp [Op.wellFormed, hw]
    · exact ih op h

theorem blockOps_wellFormed (L : Lib) (x y : Int) (b : Block) (hx : 0 ≤ x) (hy : 0 ≤ y)
    (hX : 0 ≤ b.X) (hY : 0 ≤ b.Y) : ∀ op ∈ spec.blockOps L x y b, op.wellFormed = true := by
  intro op h
  have hge : x ≤ spec.xNext L x b := xAfter_ge L b.X x b.lines
  rw [spec.blockOps] at h
  rcases List.mem_append.mp h with h | h
  · rcases List.mem_append.mp h with h | h
    · simp only [List.mem_cons, List.mem_singleton, List.not_mem_nil, or_false] at h
      rcases h with h | h | h
      · subst h; simpa [Op.wellFormed] using hy
      · subst h; simpa [Op.wellFormed] using hX
      · subst h; simpa [Op.wellFormed] using hY
    · exact linesOps_wellFormed L b.lines op h
  · simp only [List.mem_singleton] at h
    subst h; simp only [Op.wellFormed, decide_eq_true_eq]; omega

theorem yNext_nonneg (b : Block) (hY : 0 ≤ b.Y) : 0 ≤ spec.yNext b := by
  have := lines_length_pos b
  simp only [spec.yNext]
  omega

theorem drawOps_wellFormed (L : Lib) (x y : Int) (bs : List Block) (hx : 0 ≤ x) (hy : 0 ≤ y)
    (hXY : ∀ b ∈ bs, 0 ≤ b.X ∧ 0 ≤ b.Y) : ∀ op ∈ spec.drawOps L x y bs, op.wellFormed = true := by
  induction bs generalizing x y with
  | nil => intro op h; simp [spec.drawOps] at h
  | cons b bs ih =>
    intro op h
    have hb := hXY b (List.mem_cons_self _ _)
    rw [spec.drawOps] at h
    rcases List.mem_append.mp h with h | h
    · exact blockOps_wellFormed L x y b hx hy hb.1 hb.2 op h
    · have hge : x ≤ spec.xNext L x b := xAfter_ge L b.X x b.lines
      exact ih _ _ (by omega) (yNext_nonneg b hb.2)
        (fun c hc => hXY c (List.mem_cons_of_mem _ hc)) op h

theorem growOps_wellFormed (H p : Int) (hH : 0 ≤ H) :
    ∀ op ∈ spec.growOps H p, op.wellFormed = true := by
  intro op h
  unfold spec.growOps at h
  split at h
  · rcases List.mem_append.mp h with h | h
    · rw [List.eq_of_mem_replicate h]; rfl
    · simp only [List.mem_singleton] at h
      subst h; simpa [Op.wellFormed] using hH
  · simp at h

theorem flush_linesRendered_nonneg (L : Lib) (r : blockRenderer) :
    0 ≤ (r.flush L).linesRendered := by
  rw [flush_linesRendered]; exact requiredHeight_nonneg _

theorem reachable_linesRendered_nonneg (L : Lib) (r : blockRenderer) (h : Reachable L r) :
    0 ≤ r.linesRendered := by
  induction h with
  | init => decide
  | write r b _ ih => exact ih
  | handleMessages r msg _ ih => cases msg <;> exact ih
  | flush r _ _ => exact flush_linesRendered_nonneg L r

/-- C16 (well-formed movement parameters): `linesRendered ≥ 0` holds in the
state `newBlockRenderer` makes, is kept by `write` and `handleMessages`, holds
after `flush` of any frame at all, and so holds in every state reached. From a
state with `linesRendered ≥ 0` whose blocks have `X ≥ 0` and `Y ≥ 0`, the
output of `flush` is the bytes of pieces every one of which carries a
parameter that is not negative: the opening `up(linesRendered)`, the `up(H)`
of the growth step, and for each block `up(y)`, `forward(X)`, `down(Y)`,
`down(1)` and `back(width)` for each line, and `back(x)`; the running `y`
after a block is `Y + lines - 1 ≥ 0`. -/
theorem flush_parameters_nonneg (L : Lib) :
    0 ≤ newBlockRenderer.linesRendered ∧
    (∀ (r : blockRenderer) (b : List Block),
      0 ≤ r.linesRendered → 0 ≤ (r.write b).linesRendered) ∧
    (∀ (r : blockRenderer) (msg : Msg),
      0 ≤ r.linesRendered → 0 ≤ (r.handleMessages msg).linesRendered) ∧
    (∀ r : blockRenderer, 0 ≤ (r.flush L).linesRendered) ∧
    (∀ r : blockRenderer, Reachable L r → 0 ≤ r.linesRendered) ∧
    (∀ r : blockRenderer, 0 ≤ r.linesRendered → (∀ b ∈ r.buffer, 0 ≤ b.X ∧ 0 ≤ b.Y) →
      lastWrite (r.flush L) = bytesOf (spec.flushOps L r.linesRendered (L.sort r.buffer)) ∧
      (∀ op ∈ spec.flushOps L r.linesRendered (L.sort r.buffer), op.wellFormed = true) ∧
      (∀ b ∈ r.buffer, spec.yNext b = b.Y + (b.lines.length : Int) - 1 ∧ 0 ≤ spec.yNext b)) := by
  refine ⟨by decide, fun _ _ h => h, ?_, flush_linesRendered_nonneg L,
    reachable_linesRendered_nonneg L, ?_⟩
  · intro r msg h
    cases msg <;> exact h
  · intro r hp hXY
    have hs : ∀ b ∈ L.sort r.buffer, 0 ≤ b.X ∧ 0 ≤ b.Y :=
      fun b hb => hXY b ((L.sort_perm r.buffer).mem_iff.mp hb)
    refine ⟨flush_lastWrite L r, ?_, fun b hb => ⟨rfl, yNext_nonneg b (hXY b hb).2⟩⟩
    intro op h
    simp only [spec.flushOps, List.mem_append, List.mem_singleton] at h
    rcases h with (h | h) | h
    · subst h; simpa [Op.wellFormed] using hp
    · exact growOps_wellFormed _ _ (requiredHeight_nonneg _) op h
    · exact drawOps_wellFormed L 0 0 _ (le_refl 0) (le_refl 0) hs op h

/-- Witness of C16: the worked example from the state `newBlockRenderer` makes. -/
theorem flush_parameters_nonneg_witness :
    0 ≤ (newBlockRenderer.write exampleFrame).linesRendered ∧
    (∀ b ∈ (newBlockRenderer.write exampleFrame).buffer, 0 ≤ b.X ∧ 0 ≤ b.Y) ∧
    (∀ op ∈ spec.flushOps goLib 0 (goLib.sort exampleFrame), op.wellFormed = true) ∧
    Reachable goLib ((newBlockRenderer.write exampleFrame).flush goLib) ∧
    0 ≤ ((newBlockRenderer.write exampleFrame).flush goLib).linesRendered :=
  ⟨by decide, by decide,
   ((flush_parameters_nonneg goLib).2.2.2.2.2 (newBlockRenderer.write exampleFrame)
      (by decide) (by decide)).2.1,
   Reachable.flush _ (Reachable.write _ _ Reachable.init),
   (flush_parameters_nonneg goLib).2.2.2.2.1 _
     (Reachable.flush _ (Reachable.write _ _ Reachable.init))⟩

/-! ## Steady state -/

/-- C17 (steady state): for every renderer state, a second `flush` with the
same pending frame leaves `linesRendered` as the first one set it, the required
height `H` of the frame; the second output is `up(H)` directly followed by the
blocks, its growth step is empty, and it contains no line feed. -/
theorem flush_steady_state (L : Lib) (r : blockRenderer) :
    ((r.flush L).flush L).linesRendered = (r.flush L).linesRendered ∧
    (r.flush L).linesRendered = spec.requiredHeight r.buffer ∧
    spec.growOps (spec.requiredHeight (L.sort (r.flush L).buffer)) (r.flush L).linesRendered
      = [] ∧
    lastWrite ((r.flush L).flush L)
      = (CSI ++ fmtD (spec.requiredHeight r.buffer) ++ "A")
        ++ bytesOf (spec.drawOps L 0 0 (L.sort (r.flush L).buffer)) ∧
    LF ∉ (lastWrite ((r.flush L).flush L)).data ∧
    (lastWrite ((r.flush L).flush L)).data.count LF = 0 := by
  have h₁ : (r.flush L).linesRendered = spec.requiredHeight r.buffer := by
    rw [flush_linesRendered, requiredHeight_sort]
  have h₂ : spec.requiredHeight (L.sort (r.flush L).buffer) = spec.requiredHeight r.buffer := by
    rw [flush_buffer, requiredHeight_sort, requiredHeight_sort]
  have hg : spec.growOps (spec.requiredHeight (L.sort (r.flush L).buffer))
      (r.flush L).linesRendered = [] := by
    rw [h₁, h₂, spec.growOps, if_neg (lt_irrefl _)]
  have hw : lastWrite ((r.flush L).flush L)
      = (CSI ++ fmtD (spec.requiredHeight r.buffer) ++ "A")
        ++ bytesOf (spec.drawOps L 0 0 (L.sort (r.flush L).buffer)) := by
    rw [flush_bytes_split, hg, h₁, List.append_nil, up_bytes]
  have hn : LF ∉ (lastWrite ((r.flush L).flush L)).data := by
    rw [hw]
    exact no_LF_append _ _ (csi_no_LF _ "A" (by decide)) (drawOps_no_LF L 0 0 _)
  refine ⟨?_, h₁, hg, hw, hn, List.count_eq_zero.mpr hn⟩
  rw [flush_linesRendered, h₂, h₁]

/-! ## Line splitting -/

theorem splitOnP_length (p : Char → Bool) (xs : List Char) :
    (xs.splitOnP p).length = 1 + xs.countP p := by
  induction xs with
  | nil => simp
  | cons a as ih =>
    rw [List.splitOnP_cons]
    by_cases h : p a = true
    · simp [h, ih]; omega
    · have hlen : ∀ (l : List (List Char)),
          (l.modifyHead (List.cons a)).length = l.length := by
        intro l; cases l <;> simp [List.modifyHead]
      simp [h, ih, hlen]

theorem join_map_mk (ls : List (List Char)) :
    (Join (ls.map String.mk)).data = [LF].intercalate ls := by
  induction ls with
  | nil => simp [Join, List.intercalate]
  | cons a as ih =>
    cases as with
    | nil => simp [Join, List.intercalate]
    | cons b bs =>
      have e : ("\n" : String).data = [LF] := by decide
      simp only [List.map_cons] at ih ⊢
      rw [Join, String.data_append, String.data_append, ih, e]
      simp [List.intercalate, List.intersperse]

/-- C18 (line splitting): for every `Content`, `lines()` is a non-empty list of
exactly one more string than there are line feeds in `Content`, none of them
holds a line feed, and joined with line feeds they give `Content` back; a
block with empty `Content` has the one line `""`; so after `flush` of a
non-empty frame whose blocks have `Y ≥ 0` the required height recorded is at
least 1. -/
theorem lines_split (b : Block) :
    b.lines ≠ [] ∧
    b.lines.length = 1 + countLF b.Content ∧
    (∀ l ∈ b.lines, LF ∉ l.data) ∧
    Join b.lines = b.Content ∧
    (b.Content = "" → b.lines = [""]) ∧
    (∀ (L : Lib) (r : blockRenderer), r.buffer ≠ [] → (∀ c ∈ r.buffer, 0 ≤ c.Y) →
      1 ≤ (r.flush L).linesRendered ∧ 1 ≤ spec.requiredHeight r.buffer) := by
  refine ⟨List.length_pos.mp (lines_length_pos b), ?_, lines_no_LF b, ?_, ?_, ?_⟩
  · simp only [Block.lines, Split, List.length_map, List.splitOn, splitOnP_length, countLF,
      List.count, LF]
  · apply String.ext
    rw [Block.lines, Split, join_map_mk]
    exact List.intercalate_splitOn b.Content.data LF
  · intro h
    rw [Block.lines, Split, h]
    rfl
  · intro L r hne hY
    obtain ⟨c, hc⟩ := List.exists_mem_of_ne_nil _ hne
    have h₁ := requiredHeight_ge r.buffer c hc
    have h₂ := lines_length_pos c
    have h₃ := hY c hc
    rw [flush_linesRendered, requiredHeight_sort]
    omega

/-- Witness of C18: the first block of the worked example holds one line feed
and has two lines, and the worked example has required height at least 1. -/
theorem lines_split_witness :
    Block.lines ⟨1, 1, 0, "Hi\nThere", []⟩ = ["Hi", "There"] ∧
    countLF "Hi\nThere" = 1 ∧
    Join ["Hi", "There"] = "Hi\nThere" ∧
    Block.lines ⟨0, 0, 0, "", []⟩ = [""] ∧
    exampleFrame ≠ [] ∧ (∀ c ∈ exampleFrame, 0 ≤ c.Y) ∧
    1 ≤ (blockRenderer.flush goLib ⟨[], exampleFrame, 0, 80, 24⟩).linesRendered :=
  ⟨by decide, by decide, by decide,
   (lines_split ⟨0, 0, 0, "", []⟩).2.2.2.2.1 rfl,
   by decide, by decide,
   ((lines_split ⟨0, 0, 0, "", []⟩).2.2.2.2.2 goLib ⟨[], exampleFrame, 0, 80, 24⟩
      (by decide) (by decide)).1⟩

end tea
